import Mathlib

set_option maxRecDepth 8192

/-!
Verification development for the FBref La Liga statistics pipeline
(scripts/fetch_fbref.py).

The script is shallowly embedded here.  Python strings are modelled as
lists of Unicode code points (PyStr), Python cell values reaching the
coercion function as the inductive type PyVal, the insertion-ordered
Python dict as an association list with in-place value replacement, and
the whole of main (minus the HTTP and file collaborators, which per the
specification are out of scope) as the pure function runPipeline over
the four fetch results.  Real numbers never appear: the decimal values
produced by the float conversion inside safe_int are represented exactly
as numerator/denominator pairs, so every definition is executable and
kernel-reducible.
-/

/-- Model of a Python string: its list of Unicode code points. -/
abbrev PyStr : Type := List Nat

/-- Converts a Lean string literal to its code-point model. -/
def pyS (s : String) : PyStr := s.data.map Char.toNat

/-- Code points stripped by the Python str.strip method: exactly the
Unicode code points whose isspace test is true (9 to 13, 28 to 32, next
line 133, no-break space 160, ogham 5760, the general punctuation spaces
8192 to 8202, 8232, 8233, 8239, 8287 and the ideographic space 12288). -/
def isSpaceCode (c : Nat) : Bool :=
  decide ((9 ≤ c ∧ c ≤ 13) ∨ (28 ≤ c ∧ c ≤ 32) ∨ c = 133 ∨ c = 160 ∨ c = 5760 ∨
    (8192 ≤ c ∧ c ≤ 8202) ∨ c = 8232 ∨ c = 8233 ∨ c = 8239 ∨ c = 8287 ∨ c = 12288)

/-- Decimal digit code points. -/
def isDigitCode (c : Nat) : Bool := 48 ≤ c && c ≤ 57

/-- Drops leading whitespace. -/
def trimLeft (l : PyStr) : PyStr := List.dropWhile isSpaceCode l

/-- Drops trailing whitespace. -/
def trimRight (l : PyStr) : PyStr := (List.dropWhile isSpaceCode l.reverse).reverse

/-- Model of the Python str.strip method. -/
def pyStrip (l : PyStr) : PyStr := trimLeft (trimRight l)

/-- ASCII lower-casing of one code point (the script only lowercases
strings already reduced to ASCII). -/
def lowerCode (c : Nat) : Nat := if 65 ≤ c ∧ c ≤ 90 then c + 32 else c

/-- ASCII upper-casing of one code point. -/
def upperCode (c : Nat) : Nat := if 97 ≤ c ∧ c ≤ 122 then c - 32 else c

/-- Model of the Python str.lower method on ASCII material. -/
def pyLower (l : PyStr) : PyStr := l.map lowerCode

/-- Model of the Python str.upper method on ASCII material. -/
def pyUpper (l : PyStr) : PyStr := l.map upperCode

/-- Model of unicodedata.normalize NFKD for one code point, restricted to
the accented Latin letters this development needs; every other code point
decomposes to itself.  The combining marks produced (768, 769, 771, 776)
are all at least 128 and are removed by the subsequent ascii encode. -/
def nfkdCode (c : Nat) : List Nat :=
  if c = 225 then [97, 769]      -- a acute
  else if c = 224 then [97, 768] -- a grave
  else if c = 233 then [101, 769] -- e acute
  else if c = 232 then [101, 768] -- e grave
  else if c = 237 then [105, 769] -- i acute
  else if c = 243 then [111, 769] -- o acute
  else if c = 250 then [117, 769] -- u acute
  else if c = 252 then [117, 776] -- u diaeresis
  else if c = 241 then [110, 771] -- n tilde
  else if c = 193 then [65, 769]  -- A acute
  else if c = 201 then [69, 769]  -- E acute
  else if c = 205 then [73, 769]  -- I acute
  else if c = 211 then [79, 769]  -- O acute
  else if c = 218 then [85, 769]  -- U acute
  else if c = 209 then [78, 771]  -- N tilde
  else [c]

/-- Model of a Python value reaching the coercion or normalisation
functions: the absent value None, a float NaN cell, a string, or an
integer (numeric cells are modelled through their string form, as the
specification describes the fetcher as returning string-valued cells). -/
inductive PyVal where
  | none : PyVal
  | nan : PyVal
  | str (s : PyStr) : PyVal
  | int (n : Int) : PyVal
deriving DecidableEq

/-- Decimal digit list of a natural number (most significant first),
computed with explicit fuel so that it is structurally recursive and
kernel-reducible; fuel n + 1 is always sufficient for n. -/
def natCodesAux : Nat → Nat → List Nat
  | 0, _ => []
  | fuel + 1, n =>
    if n < 10 then [48 + n] else natCodesAux fuel (n / 10) ++ [48 + n % 10]

/-- Decimal digit list of a natural number, with sufficient fuel. -/
def natCodes (n : Nat) : List Nat := natCodesAux (n + 1) n

/-- Model of the Python str function on an integer. -/
def intCodes (n : Int) : PyStr :=
  if n < 0 then 45 :: natCodes n.natAbs else natCodes n.natAbs

/-- Model of the Python str function on the values of PyVal. -/
def pyStr : PyVal → PyStr
  | PyVal.none => pyS ("None")
  | PyVal.nan => pyS ("nan")
  | PyVal.str s => s
  | PyVal.int n => intCodes n

/-- Numeric value of a list of decimal digit code points. -/
def digitsVal (l : List Nat) : Nat := l.foldl (fun a d => a * 10 + (d - 48)) 0

/-- Consumes an optional leading plus or minus sign, returning the sign
as 1 or -1 together with the remaining code points. -/
def splitSign (cs : List Nat) : Int × List Nat :=
  match cs with
  | [] => (1, [])
  | c :: r => if c = 43 then (1, r) else if c = 45 then (-1, r) else (1, c :: r)

/-- Parses the optional exponent part that may follow a float mantissa:
the empty remainder means exponent zero; otherwise the letter e or E, an
optional sign and a nonempty digit string consuming the whole remainder. -/
def parseExp (cs : List Nat) : Option Int :=
  match cs with
  | [] => some 0
  | e :: rest =>
    if e = 101 ∨ e = 69 then
      let sr := splitSign rest
      let ds := sr.2.takeWhile isDigitCode
      let rest2 := sr.2.dropWhile isDigitCode
      if ds = [] ∨ rest2 ≠ [] then Option.none
      else some (sr.1 * (digitsVal ds : Int))
    else Option.none

/-- Binary exponentiation with explicit fuel: powB b k computes b ^ k
with recursion depth logarithmic in k, so that the parser and the
rounding below stay kernel-evaluable on large exponents (fuel k + 1
always suffices). -/
def powBAux : Nat → Nat → Nat → Nat
  | 0, _, _ => 1
  | f + 1, b, k =>
    if k = 0 then 1
    else
      let h := powBAux f b (k / 2)
      if k % 2 = 0 then h * h else b * (h * h)

/-- Binary exponentiation; equal to b ^ k. -/
def powB (b k : Nat) : Nat := powBAux (k + 1) b k

/-- Validates and removes PEP 515 underscore separators the way the
Python float conversion does: every underscore (code 95) must have a
digit immediately before and after it in the original string; any other
placement fails the whole conversion.  The first argument is the
previous code point (an initial sentinel 0 is not a digit, so a leading
underscore fails). -/
def remUnderscores : Nat → List Nat → Option (List Nat)
  | _, [] => some []
  | prev, c :: rest =>
    if c = 95 then
      if isDigitCode prev && (match rest with | d :: _ => isDigitCode d | [] => false)
      then remUnderscores c rest
      else Option.none
    else (remUnderscores c rest).map (fun l => c :: l)

/-- Model of the Python float conversion on an already stripped string:
underscore separators are validated and removed, then a finite decimal
literal is read (optional sign, a mantissa of digits with an optional
decimal point and at least one digit, an optional exponent) and its
value returned exactly, as a numerator/denominator pair whose
denominator is a positive power of ten.  Spellings such as inf and nan
are accepted by the runtime but make the subsequent int cast raise, so
the composite coercion yields 0 either way; they are folded into the
failure case here.  Non-ASCII decimal digits (which the runtime maps to
ASCII before parsing) are outside this model, and the string-quantified
coercion statements below therefore restrict themselves to ASCII input.
First, the helper combining a signed mantissa with a parsed exponent
into the exact represented value. -/
def applyExp (sgn num : Int) (den : Nat) (tail : List Nat) : Option (Int × Nat) :=
  match parseExp tail with
  | Option.none => Option.none
  | some e =>
    if 0 ≤ e then some (sgn * num * (powB 10 e.toNat : Nat), den)
    else some (sgn * num, den * powB 10 (-e).toNat)

/-- The literal reader: optional sign, digit mantissa with an optional
decimal point, optional exponent; exact value as a pair. -/
def pyFloatCore (cs0 : List Nat) : Option (Int × Nat) :=
  let sc := splitSign cs0
  let ip := sc.2.takeWhile isDigitCode
  let rest := sc.2.dropWhile isDigitCode
  match rest with
  | 46 :: rest2 =>
    let fp := rest2.takeWhile isDigitCode
    let rest3 := rest2.dropWhile isDigitCode
    if ip = [] ∧ fp = [] then Option.none
    else applyExp sc.1
      ((digitsVal ip : Int) * (powB 10 fp.length : Nat) + (digitsVal fp : Int))
      (powB 10 fp.length) rest3
  | _ =>
    if ip = [] then Option.none
    else applyExp sc.1 (digitsVal ip : Int) 1 rest

/-- The full decimal reading of the float conversion: underscore
validation and removal followed by the literal reader. -/
def pyFloatParse (cs : List Nat) : Option (Int × Nat) :=
  match remUnderscores 0 cs with
  | some cs2 => pyFloatCore cs2
  | Option.none => Option.none

/-- Bit length of a natural number, computed with explicit fuel so that
it is structurally recursive; numbers of 32 bits or more are reduced 32
bits at a time so the recursion stays shallow on large inputs.  Fuel
a + 1 always suffices for a. -/
def bitlenAux : Nat → Nat → Nat
  | 0, _ => 0
  | f + 1, a =>
    if a = 0 then 0
    else if 4294967296 ≤ a then bitlenAux f (a / 4294967296) + 32
    else bitlenAux f (a / 2) + 1

/-- Bit length: 0 for 0, otherwise the unique L with 2 ^ (L - 1) ≤ a < 2 ^ L. -/
def bitlen (a : Nat) : Nat := bitlenAux (a + 1) a

/-- The smallest k with a * 2 ^ k ≥ d, computed with fuel (used for the
binary exponent of values below one); the scaling runs 32 doublings at
a time while it safely can, so the recursion stays shallow.  Fuel d + 1
always suffices. -/
def negExpAux : Nat → Nat → Nat → Nat
  | 0, _, _ => 0
  | f + 1, a, d =>
    if d ≤ a then 0
    else if a * 4294967296 ≤ d then negExpAux f (a * 4294967296) d + 32
    else negExpAux f (2 * a) d + 1

/-- The smallest k with a * 2 ^ k ≥ d, for 1 ≤ a < d. -/
def negExp (a d : Nat) : Nat := negExpAux (d + 1) a d

/-- Rounds the fraction N / D to the nearest integer, ties to even. -/
def roundHalfEven (N D : Nat) : Nat :=
  let q := N / D
  let r := N % D
  if D < 2 * r then q + 1
  else if 2 * r < D then q
  else if q % 2 = 0 then q else q + 1

/-- Rounds the exact value num/den to the nearest IEEE-754 binary64
double (round to nearest, ties to even, subnormals included), modelling
the value the Python float conversion produces.  The result is the
double represented exactly as a dyadic pair; Option.none models the
overflow case, where the conversion yields an infinity and the
subsequent int cast raises, so the coercion falls back to 0. -/
def roundDouble (nd : Int × Nat) : Option (Int × Nat) :=
  let a := nd.1.natAbs
  let d := nd.2
  if d = 0 then Option.none
  else if a = 0 then some (0, 1)
  else
    let e : Int := if d ≤ a then (bitlen (a / d) : Int) - 1 else -(negExp a d : Int)
    let qe : Int := max (e - 52) (-1074)
    let N := a * powB 2 (-qe).toNat
    let D := d * powB 2 qe.toNat
    let m0 := roundHalfEven N D
    let m := if m0 = powB 2 53 then powB 2 52 else m0
    let q2 : Int := if m0 = powB 2 53 then qe + 1 else qe
    if m = 0 then some (0, 1)
    else if 0 ≤ q2 ∧ powB 2 1024 ≤ m * powB 2 q2.toNat then Option.none
    else
      let sgn : Int := if nd.1 < 0 then -1 else 1
      if 0 ≤ q2 then some (sgn * (m * powB 2 q2.toNat : Nat), 1)
      else some (sgn * (m : Nat), powB 2 (-q2).toNat)

/-- Truncation toward zero of the exact value num/den (den positive),
modelling the Python int cast applied to a finite float. -/
def truncVal (nd : Int × Nat) : Int := Int.tdiv nd.1 (nd.2 : Int)

/-- Embedding of safe_int from the script: the guard returns 0 for None,
the empty string and any value whose stripped string form is empty, nan
or NaN; otherwise the stripped string form goes through the float
conversion (decimal reading, then rounding to the nearest double) and
the int cast (truncation toward zero), any failure along the way — a
malformed literal, or an overflow to infinity that makes the int cast
raise — being caught and coerced to 0. -/
def safe_int (v : PyVal) : Int :=
  if v = PyVal.none ∨ v = PyVal.str [] ∨
      pyStrip (pyStr v) ∈ ([[], pyS ("nan"), pyS ("NaN")] : List PyStr) then 0
  else
    match pyFloatParse (pyStrip (pyStr v)) with
    | some nd =>
      match roundDouble nd with
      | some dd => truncVal dd
      | Option.none => 0
    | Option.none => 0

/-- Association-list lookup, modelling a lookup in a Python dict (keys
are unique because insertion below replaces in place). -/
def dget {α β : Type} [DecidableEq α] (m : List (α × β)) (k : α) : Option β :=
  match m with
  | [] => Option.none
  | (k0, v0) :: t => if k0 = k then some v0 else dget t k

/-- Association-list insertion modelling a Python dict assignment: an
existing key keeps its position and gets the new value, a new key is
appended, preserving insertion order. -/
def dset {α β : Type} [DecidableEq α] (m : List (α × β)) (k : α) (v : β) :
    List (α × β) :=
  match m with
  | [] => [(k, v)]
  | (k0, v0) :: t => if k0 = k then (k0, v) :: t else (k0, v0) :: dset t k v

/-- Values of the dict in insertion order, modelling dict.values. -/
def dvalues {α β : Type} (m : List (α × β)) : List β := m.map Prod.snd

/-- Embedding of the POS_MAP constant of the script. -/
def POS_MAP : List (PyStr × PyStr) :=
  [(pyS ("GK"), pyS ("GK")),
   (pyS ("DF"), pyS ("DEF")), (pyS ("DF,MF"), pyS ("DEF")), (pyS ("DF,FW"), pyS ("DEF")),
   (pyS ("MF"), pyS ("MID")), (pyS ("MF,DF"), pyS ("MID")), (pyS ("MF,FW"), pyS ("MID")),
   (pyS ("FW"), pyS ("FWD")), (pyS ("FW,MF"), pyS ("FWD")), (pyS ("FW,DF"), pyS ("FWD"))]

/-- Embedding of the position classification performed in main: the raw
tag is cut at the first comma (code point 44), stripped, uppercased and
looked up in POS_MAP with fallback MID. -/
def classifyPos (raw : PyStr) : PyStr :=
  (dget POS_MAP (pyUpper (pyStrip (List.takeWhile (fun c => c ≠ 44) raw)))).getD
    (pyS ("MID"))

/-- Embedding of normalise_name from the script: non-strings normalise to
the empty string; a string is NFKD-decomposed, encoded to ASCII with the
ignore error handler (dropping every code point at or above 128),
stripped and lowercased. -/
def normalise_name (v : PyVal) : PyStr :=
  match v with
  | PyVal.str s =>
    pyLower (pyStrip ((s.flatMap nfkdCode).filter (fun c => decide (c < 128))))
  | _ => []

/-- The join key used by main: normalise_name on an actual string. -/
def normKey (s : PyStr) : PyStr := normalise_name (PyVal.str s)

/-- Embedding of the per-player record built by main.  All fields that
the script stores in the player dict appear here with their JSON names;
points is 0 until the scoring stage assigns it. -/
structure Player where
  id : Int := 0
  name : PyStr := []
  club : PyStr := []
  pos : PyStr := []
  goals : Int := 0
  assists : Int := 0
  yellowCards : Int := 0
  redCards : Int := 0
  ownGoals : Int := 0
  penaltiesMissed : Int := 0
  shotsOnTarget : Int := 0
  cleanSheets : Int := 0
  saves : Int := 0
  penaltySaves : Int := 0
  goalsConceded : Int := 0
  tacklesWon : Int := 0
  interceptions : Int := 0
  keyPasses : Int := 0
  bigChancesCreated : Int := 0
  motm : Int := 0
  points : Int := 0
deriving DecidableEq

/-- A fetched table row: a finite map from column name to cell value. -/
abbrev Row : Type := List (PyStr × PyVal)

/-- A reduced table as returned by fetch_table: its list of rows. -/
abbrev Table : Type := List Row

/-- Model of row.get(column, default) on a pandas row. -/
def rget (row : Row) (k : PyStr) (d : PyVal) : PyVal := (dget row k).getD d

/-- The stripped string form of the Player cell of a row, as main
computes it before both the seeding and every enrichment pass. -/
def rowName (row : Row) : PyStr :=
  pyStrip (pyStr (rget row (pyS ("Player")) (PyVal.str [])))

/-- A row survives the name filter of main when its stripped player name
is neither empty nor the literal header word Player. -/
def rowSurvives (row : Row) : Prop :=
  rowName row ≠ [] ∧ rowName row ≠ pyS ("Player")

instance (row : Row) : Decidable (rowSurvives row) := by
  unfold rowSurvives; infer_instance

/-- Embedding of the local helper get of main: try the column-name
aliases in order, and coerce the first present one; default 0. -/
def getStat (row : Row) (keys : List PyStr) : Int :=
  match keys with
  | [] => 0
  | k :: rest =>
    match dget row k with
    | some v => safe_int v
    | Option.none => getStat row rest

/-- The record dict of main, keyed by normalised name. -/
abbrev Players : Type := List (PyStr × Player)

/-- Embedding of one iteration of the seeding loop of main over the
standard-stats table: filter the name, classify the position, coerce the
standard-stat columns through the alias helper, seed every
secondary-table field to 0 and insert under the normalised key. -/
def seedRow (pyhash : PyStr → Int) (m : Players) (row : Row) : Players :=
  let name := rowName row
  if name = [] ∨ name = pyS ("Player") then m
  else
    let pos := classifyPos (pyStr (rget row (pyS ("Pos")) (PyVal.str (pyS ("MF")))))
    let key := normKey name
    dset m key
      { id := ((pyhash name).natAbs : Int) % 100000
        name := name
        club := pyStrip (pyStr (rget row (pyS ("Squad")) (PyVal.str (pyS ("Unknown")))))
        pos := pos
        goals := getStat row [pyS ("Gls"), pyS ("Goals")]
        assists := getStat row [pyS ("Ast"), pyS ("Assists")]
        yellowCards := getStat row [pyS ("CrdY")]
        redCards := getStat row [pyS ("CrdR")]
        ownGoals := getStat row [pyS ("OG")]
        penaltiesMissed := getStat row [pyS ("PKmiss"), pyS ("PKM")]
        shotsOnTarget := getStat row [pyS ("SoT")]
        cleanSheets := 0
        saves := 0
        penaltySaves := 0
        goalsConceded := 0
        tacklesWon := 0
        interceptions := 0
        keyPasses := 0
        bigChancesCreated := 0
        motm := 0
        points := 0 }

/-- The shared shape of the three enrichment loop bodies of main: the
row is skipped when its name fails the filter or its key is absent from
the dict; otherwise the existing record is overwritten in place with the
fields owned by the pass, computed by the update function. -/
def enrichRow (upd : Player → Row → Player) (m : Players) (row : Row) : Players :=
  let name := rowName row
  if name = [] ∨ name = pyS ("Player") then m
  else
    match dget m (normKey name) with
    | Option.none => m
    | some p => dset m (normKey name) (upd p row)

/-- The field overwrite of the goalkeeping enrichment loop: exactly the
four goalkeeping fields are replaced with coerced cell values. -/
def gkUpdate (p : Player) (row : Row) : Player :=
  { p with
    cleanSheets := safe_int (rget row (pyS ("CS")) (PyVal.int 0))
    saves := safe_int (rget row (pyS ("Saves")) (PyVal.int 0))
    penaltySaves := safe_int (rget row (pyS ("PKsv")) (PyVal.int 0))
    goalsConceded := safe_int (rget row (pyS ("GA")) (PyVal.int 0)) }

/-- The field overwrite of the defensive enrichment loop. -/
def defUpdate (p : Player) (row : Row) : Player :=
  { p with
    tacklesWon := safe_int (rget row (pyS ("TklW")) (PyVal.int 0))
    interceptions := safe_int (rget row (pyS ("Int")) (PyVal.int 0)) }

/-- The field overwrite of the passing enrichment loop. -/
def passUpdate (p : Player) (row : Row) : Player :=
  { p with
    keyPasses := safe_int (rget row (pyS ("KP")) (PyVal.int 0))
    bigChancesCreated := safe_int (rget row (pyS ("PPA")) (PyVal.int 0)) }

/-- Embedding of one iteration of the goalkeeping enrichment loop. -/
def gkRow : Players → Row → Players := enrichRow gkUpdate

/-- Embedding of one iteration of the defensive enrichment loop. -/
def defRow : Players → Row → Players := enrichRow defUpdate

/-- Embedding of one iteration of the passing enrichment loop. -/
def passRow : Players → Row → Players := enrichRow passUpdate

/-- The seeding pass over the whole standard-stats table. -/
def seedDict (pyhash : PyStr → Int) (t : Table) : Players :=
  t.foldl (seedRow pyhash) []

/-- An enrichment pass over an optional secondary table: a failed fetch
(no table) leaves the dict untouched, exactly as the None check of main
does. -/
def enrichPass (f : Players → Row → Players) (m : Players) : Option Table → Players
  | Option.none => m
  | some t => t.foldl f m

/-- The record dict after the seeding pass and all three enrichment
passes, in the order of main: goalkeeping, defensive, passing. -/
def mergedDict (pyhash : PyStr → Int) (std : Table)
    (gkT defT pasT : Option Table) : Players :=
  enrichPass passRow (enrichPass defRow (enrichPass gkRow (seedDict pyhash std) gkT) defT) pasT

/-- Embedding of calculate_points from the script, Python floor division
rendered as Int.fdiv. -/
def calculate_points (p : Player) : Int :=
  let pts : Int := 0
  let pts :=
    if p.pos = pyS ("GK") then
      pts + p.cleanSheets * 4 + Int.fdiv p.saves 3 + p.penaltySaves * 5
        - Int.fdiv p.goalsConceded 2
    else if p.pos = pyS ("DEF") then
      pts + p.goals * 6 + p.assists * 3 + p.cleanSheets * 4 + p.tacklesWon * 1
        + p.interceptions * 1
    else if p.pos = pyS ("MID") then
      pts + p.goals * 5 + p.assists * 3 + p.cleanSheets * 1 + p.keyPasses * 1
        + p.shotsOnTarget * 1 + p.bigChancesCreated * 1
    else if p.pos = pyS ("FWD") then
      pts + p.goals * 4 + p.assists * 3 + p.shotsOnTarget * 1 + p.bigChancesCreated * 1
    else pts
  pts + p.yellowCards * (-1) + p.redCards * (-3) + p.ownGoals * (-2)
    + p.penaltiesMissed * (-2)

/-- The scored list of main: the dict values in insertion order, each
with its points assigned. -/
def scoredList (pyhash : PyStr → Int) (std : Table)
    (gkT defT pasT : Option Table) : List Player :=
  (dvalues (mergedDict pyhash std gkT defT pasT)).map
    (fun p => { p with points := calculate_points p })

/-- The sort order of main: by points descending (list.sort with the
points key and reverse set, which is a stable sort). -/
def byPoints (a b : Player) : Prop := b.points ≤ a.points

instance : DecidableRel byPoints := fun a b => Int.decLe b.points a.points

instance : IsTotal Player byPoints := ⟨fun a b => Int.le_total b.points a.points⟩

instance : IsTrans Player byPoints := ⟨fun _ _ _ hab hbc => le_trans hbc hab⟩

/-- A stable sort, modelling the stable Python list.sort. -/
def sortPlayers (l : List Player) : List Player := List.insertionSort byPoints l

/-- The JSON document written by main, less the wall-clock timestamp
field (real time is outside the model). -/
structure Output where
  season : PyStr
  league : PyStr
  source : PyStr
  players : List Player
deriving DecidableEq

/-- Embedding of main over the four fetch results: a missing primary
table aborts with exit code 1 and no output (the Option.none result);
otherwise the seeding, enrichment, scoring, sorting and serialising
stages run and the document is written (the some result, exit code 0). -/
def runPipeline (pyhash : PyStr → Int) (std gkT defT pasT : Option Table) :
    Option Output :=
  match std with
  | Option.none => Option.none
  | some stdT =>
    some
      { season := pyS ("2024-25")
        league := pyS ("La Liga")
        source := pyS ("FBref.com")
        players := sortPlayers (scoredList pyhash stdT gkT defT pasT) }

/-! Basic association-list lemmas. -/

theorem dget_mem {α β : Type} [DecidableEq α] {m : List (α × β)} {k : α} {v : β}
    (h : dget m k = some v) : (k, v) ∈ m := by
  induction m with
  | nil => simp [dget] at h
  | cons hd tl ih =>
    obtain ⟨k0, v0⟩ := hd
    by_cases hk : k0 = k
    · subst hk
      simp [dget] at h
      simp [h]
    · simp [dget, hk] at h
      exact List.mem_cons_of_mem _ (ih h)

theorem dget_dset {α β : Type} [DecidableEq α] (m : List (α × β)) (k k0 : α) (v : β) :
    dget (dset m k v) k0 = if k = k0 then some v else dget m k0 := by
  induction m with
  | nil => by_cases h : k = k0 <;> simp [dget, dset, h]
  | cons hd tl ih =>
    obtain ⟨k1, v1⟩ := hd
    by_cases h1 : k1 = k
    · subst h1
      by_cases h0 : k1 = k0
      · subst h0; simp [dget, dset]
      · simp [dset, dget, h0]
    · by_cases h0 : k1 = k0
      · subst h0
        have : k ≠ k1 := fun h => h1 h.symm
        simp [dset, dget, h1, this]
      · simp [dset, dget, h1, h0, ih]

theorem dvalues_dset_subset {α β : Type} [DecidableEq α] {m : List (α × β)}
    {k : α} {v : β} {q : β} (h : q ∈ dvalues (dset m k v)) :
    q = v ∨ q ∈ dvalues m := by
  induction m with
  | nil => simp [dset, dvalues] at h; exact Or.inl h
  | cons hd tl ih =>
    obtain ⟨k1, v1⟩ := hd
    by_cases h1 : k1 = k
    · subst h1
      simp [dset, dvalues] at h ⊢
      rcases h with h | h
      · exact Or.inl h
      · exact Or.inr (Or.inr h)
    · simp [dset, dvalues, h1] at h ⊢
      rcases h with h | h
      · exact Or.inr (Or.inl h)
      · rcases ih (by simpa [dvalues] using h) with h2 | h2
        · exact Or.inl h2
        · exact Or.inr (Or.inr (by simpa [dvalues] using h2))

theorem dget_dvalues {α β : Type} [DecidableEq α] {m : List (α × β)} {k : α} {v : β}
    (h : dget m k = some v) : v ∈ dvalues m := by
  have := dget_mem h
  exact List.mem_map.mpr ⟨(k, v), this, rfl⟩

/-- CLAIM C1.  For every fully-merged player record, calculate_points
returns the positional additions dictated by the position (GK, DEF, MID,
FWD, with every other position contributing nothing), plus the shared
card and own-goal penalties, the two goalkeeper divisions being floor
divisions. -/
def specCalculatePoints (p : Player) : Int :=
  (if p.pos = pyS ("GK") then
      p.cleanSheets * 4 + Int.fdiv p.saves 3 + p.penaltySaves * 5
        - Int.fdiv p.goalsConceded 2
    else if p.pos = pyS ("DEF") then
      p.goals * 6 + p.assists * 3 + p.cleanSheets * 4 + p.tacklesWon + p.interceptions
    else if p.pos = pyS ("MID") then
      p.goals * 5 + p.assists * 3 + p.cleanSheets + p.keyPasses + p.shotsOnTarget
        + p.bigChancesCreated
    else if p.pos = pyS ("FWD") then
      p.goals * 4 + p.assists * 3 + p.shotsOnTarget + p.bigChancesCreated
    else 0)
    + (p.yellowCards * (-1) + p.redCards * (-3) + p.ownGoals * (-2)
        + p.penaltiesMissed * (-2))

/-- CLAIM C1.  The scoring function of the script computes exactly the
position-branching formula stated by the specification: the positional
additions for GK, DEF, MID and FWD, a zero positional base for any other
position value, and the shared penalties added in every case, with floor
division in the two goalkeeper terms. -/
theorem claim_C1 (p : Player) : calculate_points p = specCalculatePoints p := by
  unfold calculate_points specCalculatePoints
  split_ifs <;> ring

/-- CLAIM C2, counterexample.  A primary table that was fetched but
contains zero player rows does not abort the run: the pipeline writes an
output document whose players sequence is empty and exits successfully,
contradicting the claim that an empty primary table exits with code 1
and writes no output. -/
theorem claim_C2_counterexample :
    runPipeline (fun _ => 0) (some []) Option.none Option.none Option.none =
      some { season := pyS ("2024-25"), league := pyS ("La Liga"),
             source := pyS ("FBref.com"), players := [] } := by decide

/-- CLAIM C2, amended.  The process exits with code 1 and writes no
output exactly when the primary fetch returns no table; in every other
run, including one whose primary table contains zero player rows, it
exits with code 0 and writes the output, regardless of how many of the
three secondary-source fetches fail. -/
theorem claim_C2 (pyhash : PyStr → Int) (std gkT defT pasT : Option Table) :
    (runPipeline pyhash std gkT defT pasT = Option.none ↔ std = Option.none) ∧
    (∀ t : Table, std = some t →
      ∃ out : Output, runPipeline pyhash std gkT defT pasT = some out) := by
  constructor
  · cases std with
    | none => simp [runPipeline]
    | some t => simp [runPipeline]
  · intro t ht
    subst ht
    exact ⟨_, rfl⟩

/-- CLAIM C2, witness for the amended theorem at a concrete input. -/
theorem claim_C2_witness :
    ∃ out : Output,
      runPipeline (fun _ => 0) (some []) Option.none Option.none Option.none =
        some out :=
  (claim_C2 (fun _ => 0) (some []) Option.none Option.none Option.none).2 [] rfl

/-! Lemmas about takeWhile used for the position classifier. -/

theorem takeWhile_eq_self {p : Nat → Bool} {s : List Nat}
    (h : ∀ c ∈ s, p c = true) : s.takeWhile p = s := by
  induction s with
  | nil => rfl
  | cons a l ih =>
    simp only [List.takeWhile_cons, h a (List.mem_cons_self a l)]
    exact congrArg (a :: ·) (ih fun c hc => h c (List.mem_cons_of_mem a hc))

theorem takeWhile_append_stop {p : Nat → Bool} {s : List Nat}
    (h : ∀ c ∈ s, p c = true) {x : Nat} (hx : p x = false) (t : List Nat) :
    (s ++ x :: t).takeWhile p = s := by
  induction s with
  | nil => simp [List.takeWhile_cons, hx]
  | cons a l ih =>
    simp only [List.cons_append, List.takeWhile_cons, h a (List.mem_cons_self a l)]
    exact congrArg (a :: ·) (ih fun c hc => h c (List.mem_cons_of_mem a hc))

/-- Every value stored in POS_MAP is one of the four buckets. -/
theorem pos_map_range {k v : PyStr} (h : dget POS_MAP k = some v) :
    v = pyS ("GK") ∨ v = pyS ("DEF") ∨ v = pyS ("MID") ∨ v = pyS ("FWD") := by
  have hm := dget_mem h
  simp only [POS_MAP, List.mem_cons, List.not_mem_nil, or_false, Prod.mk.injEq] at hm
  rcases hm with ⟨_, rfl⟩ | ⟨_, rfl⟩ | ⟨_, rfl⟩ | ⟨_, rfl⟩ | ⟨_, rfl⟩ | ⟨_, rfl⟩ |
    ⟨_, rfl⟩ | ⟨_, rfl⟩ | ⟨_, rfl⟩ | ⟨_, rfl⟩ <;> simp

/-- CLAIM C9.  The position classifier takes only the first
comma-separated code of the raw tag, uppercases it, and maps it through
the fixed lookup table to one of GK, DEF, MID, FWD, every unrecognised
code falling back to MID; in particular DF,MF classifies as DEF, FW as
FWD and XX as MID. -/
theorem claim_C9 :
    classifyPos (pyS ("DF,MF")) = pyS ("DEF") ∧
    classifyPos (pyS ("FW")) = pyS ("FWD") ∧
    classifyPos (pyS ("XX")) = pyS ("MID") ∧
    (∀ raw : PyStr, classifyPos raw = pyS ("GK") ∨ classifyPos raw = pyS ("DEF") ∨
      classifyPos raw = pyS ("MID") ∨ classifyPos raw = pyS ("FWD")) ∧
    (∀ s t : List Nat, (∀ c ∈ s, c ≠ 44) →
      classifyPos (s ++ 44 :: t) = classifyPos s) := by
  refine ⟨by decide, by decide, by decide, ?_, ?_⟩
  · intro raw
    unfold classifyPos
    cases hd : dget POS_MAP (pyUpper (pyStrip (List.takeWhile (fun c => c ≠ 44) raw))) with
    | none => simp [Option.getD]
    | some v =>
      rcases pos_map_range hd with h | h | h | h <;> simp [Option.getD, h]
  · intro s t hs
    unfold classifyPos
    have h1 : List.takeWhile (fun c => decide (c ≠ 44)) (s ++ 44 :: t) = s :=
      takeWhile_append_stop (fun c hc => by simpa using hs c hc) (by simp) t
    have h2 : List.takeWhile (fun c => decide (c ≠ 44)) s = s :=
      takeWhile_eq_self (fun c hc => by simpa using hs c hc)
    rw [show (fun c => (decide ¬c = 44)) = (fun c => decide (c ≠ 44)) from rfl] at *
    rw [h1, h2]

theorem powBAux_eq : ∀ (f b k : Nat), k < f → powBAux f b k = b ^ k := by
  intro f
  induction f with
  | zero => omega
  | succ f ih =>
    intro b k hk
    unfold powBAux
    by_cases h0 : k = 0
    · simp [h0]
    · rw [if_neg h0]
      simp only []
      rw [ih b (k / 2) (by omega)]
      by_cases he : k % 2 = 0
      · rw [if_pos he, ← Nat.pow_add]
        congr 1
        omega
      · rw [if_neg he, ← Nat.pow_add, ← Nat.pow_succ']
        congr 1
        omega

theorem powB_eq (b k : Nat) : powB b k = b ^ k :=
  powBAux_eq (k + 1) b k (Nat.lt_succ_self k)

theorem digitsVal_append_digit (xs : List Nat) (d : Nat) :
    digitsVal (xs ++ [d]) = digitsVal xs * 10 + (d - 48) := by
  unfold digitsVal
  rw [List.foldl_append]
  rfl

theorem digitsVal_natCodesAux {fuel n : Nat} (h : n < fuel) :
    digitsVal (natCodesAux fuel n) = n := by
  induction fuel generalizing n with
  | zero => omega
  | succ fuel ih =>
    unfold natCodesAux
    by_cases h10 : n < 10
    · simp only [h10, if_true, digitsVal, List.foldl]
      omega
    · simp only [h10, if_false]
      rw [digitsVal_append_digit, ih (by omega)]
      omega

theorem natCodesAux_digits {fuel n c : Nat} (h : c ∈ natCodesAux fuel n) :
    isDigitCode c = true := by
  induction fuel generalizing n with
  | zero => simp [natCodesAux] at h
  | succ fuel ih =>
    unfold natCodesAux at h
    by_cases h10 : n < 10
    · simp only [h10, if_true, List.mem_singleton] at h
      subst h
      simp only [isDigitCode, Bool.and_eq_true, decide_eq_true_eq]
      omega
    · simp only [h10, if_false, List.mem_append, List.mem_singleton] at h
      rcases h with h | h
      · exact ih h
      · subst h
        simp only [isDigitCode, Bool.and_eq_true, decide_eq_true_eq]
        omega

theorem natCodes_digits {n c : Nat} (h : c ∈ natCodes n) : isDigitCode c = true :=
  natCodesAux_digits h

theorem digitsVal_natCodes (n : Nat) : digitsVal (natCodes n) = n :=
  digitsVal_natCodesAux (Nat.lt_succ_self n)

theorem natCodes_ne_nil (n : Nat) : natCodes n ≠ [] := by
  unfold natCodes natCodesAux
  by_cases h10 : n < 10 <;> simp [h10]

theorem digit_ge {c : Nat} (h : isDigitCode c = true) : 48 ≤ c ∧ c ≤ 57 := by
  simpa [isDigitCode] using h

theorem isSpaceCode_false_of_range {c : Nat} (h1 : 33 ≤ c) (h2 : c ≤ 132) :
    isSpaceCode c = false := by
  simp only [isSpaceCode, decide_eq_false_iff_not]
  omega

theorem dropWhile_eq_nil_of_all {p : Nat → Bool} {l : List Nat}
    (h : ∀ c ∈ l, p c = true) : l.dropWhile p = [] := by
  induction l with
  | nil => rfl
  | cons a t ih =>
    simp only [List.dropWhile_cons, h a (List.mem_cons_self a t), if_true]
    exact ih fun c hc => h c (List.mem_cons_of_mem a hc)

theorem dropWhile_eq_self_of_all {p : Nat → Bool} {l : List Nat}
    (h : ∀ c ∈ l, p c = false) : l.dropWhile p = l := by
  cases l with
  | nil => rfl
  | cons a t => simp [List.dropWhile_cons, h a (List.mem_cons_self a t)]

theorem pyStrip_eq_self {l : PyStr} (h : ∀ c ∈ l, isSpaceCode c = false) :
    pyStrip l = l := by
  unfold pyStrip trimLeft trimRight
  rw [dropWhile_eq_self_of_all (fun c hc => h c (List.mem_reverse.mp hc)),
    List.reverse_reverse, dropWhile_eq_self_of_all h]

theorem pyFloatCore_digits {ds : List Nat} (hd : ∀ c ∈ ds, isDigitCode c = true)
    (hne : ds ≠ []) : pyFloatCore ds = some ((digitsVal ds : Int), 1) := by
  obtain ⟨d, t, rfl⟩ := List.exists_cons_of_ne_nil hne
  have hd0 := digit_ge (hd d (List.mem_cons_self d t))
  have hsign : splitSign (d :: t) = (1, d :: t) := by
    have h43 : d ≠ 43 := by omega
    have h45 : d ≠ 45 := by omega
    simp [splitSign, h43, h45]
  unfold pyFloatCore
  rw [hsign]
  simp only [takeWhile_eq_self hd, dropWhile_eq_nil_of_all hd]
  rw [if_neg (by simp)]
  simp [applyExp, parseExp, powB_eq]

theorem pyFloatCore_neg_digits {ds : List Nat} (hd : ∀ c ∈ ds, isDigitCode c = true)
    (hne : ds ≠ []) : pyFloatCore (45 :: ds) = some (-(digitsVal ds : Int), 1) := by
  obtain ⟨d, t, rfl⟩ := List.exists_cons_of_ne_nil hne
  have hsign : splitSign (45 :: d :: t) = (-1, d :: t) := by
    simp [splitSign]
  unfold pyFloatCore
  rw [hsign]
  simp only [takeWhile_eq_self hd, dropWhile_eq_nil_of_all hd]
  rw [if_neg (by simp)]
  simp [applyExp, parseExp, powB_eq]

theorem remUnderscores_id {cs : List Nat} (h : ∀ c ∈ cs, c ≠ 95) :
    ∀ p : Nat, remUnderscores p cs = some cs := by
  induction cs with
  | nil => intro p; rfl
  | cons c rest ih =>
    intro p
    unfold remUnderscores
    rw [if_neg (h c (List.mem_cons_self c rest)),
      ih (fun x hx => h x (List.mem_cons_of_mem c hx))]
    rfl

theorem pyFloatParse_digits {ds : List Nat} (hd : ∀ c ∈ ds, isDigitCode c = true)
    (hne : ds ≠ []) : pyFloatParse ds = some ((digitsVal ds : Int), 1) := by
  unfold pyFloatParse
  rw [remUnderscores_id (fun c hc => by have := digit_ge (hd c hc); omega) 0]
  exact pyFloatCore_digits hd hne

theorem pyFloatParse_neg_digits {ds : List Nat} (hd : ∀ c ∈ ds, isDigitCode c = true)
    (hne : ds ≠ []) : pyFloatParse (45 :: ds) = some (-(digitsVal ds : Int), 1) := by
  unfold pyFloatParse
  have h95 : ∀ c ∈ 45 :: ds, c ≠ 95 := by
    intro c hc
    rcases List.mem_cons.mp hc with rfl | hc
    · omega
    · have := digit_ge (hd c hc); omega
  rw [remUnderscores_id h95 0]
  exact pyFloatCore_neg_digits hd hne

theorem intCodes_chars {n : Int} {c : Nat} (h : c ∈ intCodes n) :
    c = 45 ∨ isDigitCode c = true := by
  unfold intCodes at h
  by_cases hn : n < 0
  · simp only [hn, if_true, List.mem_cons] at h
    rcases h with h | h
    · exact Or.inl h
    · exact Or.inr (natCodes_digits h)
  · simp only [hn, if_false] at h
    exact Or.inr (natCodes_digits h)

theorem intCodes_ne_nil (n : Int) : intCodes n ≠ [] := by
  unfold intCodes
  by_cases hn : n < 0
  · simp [hn]
  · simp only [hn, if_false]
    exact natCodes_ne_nil _

theorem intCodes_no_space {n : Int} {c : Nat} (h : c ∈ intCodes n) :
    isSpaceCode c = false := by
  rcases intCodes_chars h with rfl | hd
  · exact isSpaceCode_false_of_range (by omega) (by omega)
  · have := digit_ge hd
    exact isSpaceCode_false_of_range (by omega) (by omega)

theorem intCodes_ne_marker (n : Int) :
    intCodes n ≠ pyS ("nan") ∧ intCodes n ≠ pyS ("NaN") := by
  constructor
  · intro heq
    have h110 : (110 : Nat) ∈ intCodes n := by
      rw [heq]; decide
    rcases intCodes_chars h110 with h | h
    · omega
    · have := digit_ge h; omega
  · intro heq
    have h78 : (78 : Nat) ∈ intCodes n := by
      rw [heq]; decide
    rcases intCodes_chars h78 with h | h
    · omega
    · have := digit_ge h; omega

theorem truncVal_one (m : Int) : truncVal (m, 1) = m := by
  simp [truncVal]

theorem bitlenAux_zero : ∀ f : Nat, bitlenAux f 0 = 0 := by
  intro f
  cases f with
  | zero => rfl
  | succ f => simp [bitlenAux]

theorem bitlenAux_correct : ∀ (f a : Nat), a < f → 1 ≤ a →
    2 ^ (bitlenAux f a - 1) ≤ a ∧ a < 2 ^ bitlenAux f a := by
  intro f
  induction f with
  | zero => omega
  | succ f ih =>
    intro a hf ha
    unfold bitlenAux
    rw [if_neg (by omega)]
    by_cases hbig : 4294967296 ≤ a
    · rw [if_pos hbig]
      have hrec := ih (a / 4294967296) (by omega) (by omega)
      obtain ⟨hl, hu⟩ := hrec
      set B := bitlenAux f (a / 4294967296) with hB
      have hB1 : 1 ≤ B := by
        by_contra hb
        have hz : B = 0 := by omega
        rw [hz] at hu
        simp at hu
        omega
      have e1 : (2 : Nat) ^ (B + 32 - 1) = 2 ^ (B - 1) * 4294967296 := by
        rw [show B + 32 - 1 = (B - 1) + 32 from by omega, Nat.pow_add]
      have e2 : (2 : Nat) ^ (B + 32) = 2 ^ B * 4294967296 := by
        rw [Nat.pow_add]
      rw [e1, e2]
      omega
    · rw [if_neg hbig]
      by_cases h2 : a ≤ 1
      · have ha1 : a = 1 := by omega
        subst ha1
        rw [show (1 : Nat) / 2 = 0 from rfl, bitlenAux_zero]
        norm_num
      · have hrec := ih (a / 2) (by omega) (by omega)
        obtain ⟨hl, hu⟩ := hrec
        set B := bitlenAux f (a / 2) with hB
        have hB1 : 1 ≤ B := by
          by_contra hb
          have hz : B = 0 := by omega
          rw [hz] at hu
          simp at hu
          omega
        constructor
        · have e1 : 2 ^ (B + 1 - 1) = 2 * 2 ^ (B - 1) := by
            rw [Nat.add_sub_cancel]
            calc 2 ^ B = 2 ^ (B - 1 + 1) := by congr 1; omega
            _ = 2 ^ (B - 1) * 2 := by rw [Nat.pow_succ]
            _ = 2 * 2 ^ (B - 1) := by ring
          rw [e1]
          omega
        · have e1 : 2 ^ (B + 1) = 2 * 2 ^ B := by
            rw [Nat.pow_succ]; ring
          rw [e1]
          omega

theorem bitlen_correct {a : Nat} (h : 1 ≤ a) :
    2 ^ (bitlen a - 1) ≤ a ∧ a < 2 ^ bitlen a :=
  bitlenAux_correct (a + 1) a (Nat.lt_succ_self a) h

theorem roundDouble_int_small {n : Int} (h0 : n ≠ 0) (h53 : n.natAbs ≤ 2 ^ 53) :
    ∃ dd : Int × Nat, roundDouble (n, 1) = some dd ∧ truncVal dd = n := by
  have ha1 : 1 ≤ n.natAbs := by omega
  obtain ⟨hbl, hbu⟩ := bitlen_correct ha1
  have hsgn : (if n < 0 then (-1 : Int) else 1) * (n.natAbs : Int) = n := by
    by_cases hn : n < 0
    · rw [if_pos hn]; omega
    · rw [if_neg hn]; omega
  by_cases hc : n.natAbs = 2 ^ 53
  · have hcL : n.natAbs = 9007199254740992 := by rw [hc]; norm_num
    have hn2 : n = 9007199254740992 ∨ n = -9007199254740992 := by omega
    rcases hn2 with rfl | rfl
    · exact ⟨(9007199254740992, 1), by decide, by decide⟩
    · exact ⟨(-9007199254740992, 1), by decide, by decide⟩
  · have hlt : n.natAbs < 2 ^ 53 := by omega
    unfold roundDouble
    dsimp only
    simp only [powB_eq]
    rw [if_neg (by norm_num : ¬(1 : Nat) = 0), if_neg (by omega : ¬n.natAbs = 0),
      if_pos ha1, Nat.div_one]
    set L := bitlen n.natAbs with hLdef
    have hL1 : 1 ≤ L := by
      by_contra hb
      have hz : L = 0 := by omega
      rw [hz] at hbu
      simp at hbu
      omega
    have hL53 : L ≤ 53 := by
      have h1 : (2 : Nat) ^ (L - 1) < 2 ^ 53 := lt_of_le_of_lt hbl hlt
      have h2 := (Nat.pow_lt_pow_iff_right (a := 2) (by norm_num)).mp h1
      omega
    have hqe : max ((L : Int) - 1 - 52) (-1074) = (L : Int) - 53 := by
      rw [show (L : Int) - 1 - 52 = (L : Int) - 53 from by ring]
      exact max_eq_left (by omega)
    rw [hqe]
    rw [show (-((L : Int) - 53)).toNat = 53 - L from by omega]
    rw [show ((L : Int) - 53).toNat = 0 from by omega]
    rw [pow_zero, Nat.mul_one]
    set N := n.natAbs * 2 ^ (53 - L) with hNdef
    have hNval : roundHalfEven N 1 = N := by
      unfold roundHalfEven
      dsimp only
      rw [Nat.div_one, Nat.mod_one]
      norm_num
    rw [hNval]
    have hp : 0 < 2 ^ (53 - L) := Nat.two_pow_pos _
    have hNlt : N < 2 ^ 53 := by
      have h1 : N < 2 ^ L * 2 ^ (53 - L) := by
        rw [hNdef]
        exact (Nat.mul_lt_mul_right hp).mpr hbu
      have h2 : (2 : Nat) ^ L * 2 ^ (53 - L) = 2 ^ 53 := by
        rw [← Nat.pow_add]
        congr 1
        omega
      omega
    have hNpos : ¬N = 0 := Nat.mul_ne_zero (by omega) (Nat.two_pow_pos _).ne'
    have hm53 : ¬N = 2 ^ 53 := by omega
    rw [if_neg hm53, if_neg hm53]
    rw [if_neg hNpos]
    rw [if_neg ?hov]
    case hov =>
      rintro ⟨hq2, hbig⟩
      have hL53e : L = 53 := by omega
      rw [hL53e] at hbig
      norm_num at hbig
      have hlt2 : N < 2 ^ 1024 := lt_of_lt_of_le hNlt (by norm_num)
      omega
    by_cases hL2 : L = 53
    · rw [if_pos (by omega : (0 : Int) ≤ (L : Int) - 53)]
      refine ⟨_, rfl, ?_⟩
      rw [show ((L : Int) - 53).toNat = 0 from by omega, pow_zero, Nat.mul_one,
        truncVal_one]
      rw [hNdef, hL2, Nat.sub_self, pow_zero, Nat.mul_one]
      exact hsgn
    · rw [if_neg (by omega : ¬(0 : Int) ≤ (L : Int) - 53)]
      refine ⟨_, rfl, ?_⟩
      unfold truncVal
      dsimp only
      rw [show (-((L : Int) - 53)).toNat = 53 - L from by omega]
      rw [hNdef]
      rw [Nat.cast_mul, Nat.cast_pow]
      rw [← mul_assoc]
      rw [Int.mul_tdiv_cancel _ (pow_ne_zero _ (by norm_num))]
      exact hsgn

theorem safe_int_int_small {n : Int} (h53 : n.natAbs ≤ 2 ^ 53) :
    safe_int (PyVal.int n) = n := by
  by_cases h0 : n = 0
  · subst h0
    decide
  · have hstrip : pyStrip (pyStr (PyVal.int n)) = intCodes n :=
      pyStrip_eq_self fun c hc => intCodes_no_space hc
    have hmark := intCodes_ne_marker n
    have hguard : ¬(PyVal.int n = PyVal.none ∨ PyVal.int n = PyVal.str [] ∨
        pyStrip (pyStr (PyVal.int n)) ∈ ([[], pyS ("nan"), pyS ("NaN")] : List PyStr)) := by
      rw [hstrip]
      simp only [List.mem_cons, List.not_mem_nil, or_false]
      push_neg
      exact ⟨by simp, by simp, intCodes_ne_nil n, hmark.1, hmark.2⟩
    unfold safe_int
    rw [if_neg hguard, hstrip]
    unfold intCodes
    obtain ⟨dd, hdd, htr⟩ := roundDouble_int_small h0 h53
    by_cases hn : n < 0
    · simp only [hn, if_true]
      rw [pyFloatParse_neg_digits (fun c hc => natCodes_digits hc) (natCodes_ne_nil _)]
      simp only [digitsVal_natCodes]
      rw [show -(n.natAbs : Int) = n from by omega]
      rw [hdd]
      exact htr
    · simp only [hn, if_false]
      rw [pyFloatParse_digits (fun c hc => natCodes_digits hc) (natCodes_ne_nil _)]
      simp only [digitsVal_natCodes]
      rw [show ((n.natAbs : Nat) : Int) = n from by omega]
      rw [hdd]
      exact htr

theorem safe_int_guard_false {s : PyStr} {nd : Int × Nat}
    (h : pyFloatParse (pyStrip s) = some nd) :
    ¬(PyVal.str s = PyVal.none ∨ PyVal.str s = PyVal.str [] ∨
      pyStrip (pyStr (PyVal.str s)) ∈ ([[], pyS ("nan"), pyS ("NaN")] : List PyStr)) := by
  intro hg
  rcases hg with hg | hg | hg
  · exact PyVal.noConfusion hg
  · have hs : s = [] := by injection hg
    rw [hs] at h
    have h2 : pyFloatParse (pyStrip ([] : PyStr)) = Option.none := by decide
    rw [h2] at h
    exact Option.noConfusion h
  · simp only [pyStr, List.mem_cons, List.not_mem_nil, or_false] at hg
    rcases hg with hg | hg | hg <;> rw [hg] at h
    · have h2 : pyFloatParse ([] : List Nat) = Option.none := by decide
      rw [h2] at h; exact Option.noConfusion h
    · have h2 : pyFloatParse (pyS ("nan")) = Option.none := by decide
      rw [h2] at h; exact Option.noConfusion h
    · have h2 : pyFloatParse (pyS ("NaN")) = Option.none := by decide
      rw [h2] at h; exact Option.noConfusion h

/-- CLAIM C6, counterexample.  The string 1e400 is parseable as a decimal
number with value 10 ^ 400, whose truncation toward zero is the nonzero
integer 10 ^ 400; yet the coercion returns 0, because the runtime float
conversion overflows to infinity and the int cast then raises, which the
blanket except of safe_int converts to 0.  This refutes the claim that
every value parseable as a decimal number coerces to its value truncated
toward zero. -/
theorem claim_C6_counterexample :
    pyFloatParse (pyStrip (pyS ("1e400"))) = some ((10 : Int) ^ 400, 1) ∧
    truncVal ((10 : Int) ^ 400, 1) = (10 : Int) ^ 400 ∧
    (10 : Int) ^ 400 ≠ 0 ∧
    safe_int (PyVal.str (pyS ("1e400"))) = 0 :=
  ⟨by decide, by decide, by decide, by decide⟩

/-- CLAIM C6, amended.  The value coercion never fails: None and NaN
cells, strings that strip to empty under the Python whitespace set, the
literal markers nan and NaN, and every ASCII string whose stripped form
is not a parseable decimal literal (optional sign, digits with optional
point and exponent, underscore separators between digits) coerce to 0; a
parseable decimal is converted to the nearest IEEE-754 double (ties to
even) and truncated toward zero, so exactly representable values such as
12.0 and integer inputs up to 2 ^ 53 in magnitude pass through exactly,
a value that overflows the double range coerces to 0, and values beyond
2 ^ 53 are rounded to double precision first. -/
theorem claim_C6 :
    safe_int PyVal.none = 0 ∧
    safe_int PyVal.nan = 0 ∧
    (∀ s : PyStr, pyStrip s = [] → safe_int (PyVal.str s) = 0) ∧
    safe_int (PyVal.str (pyS ("nan"))) = 0 ∧
    safe_int (PyVal.str (pyS ("NaN"))) = 0 ∧
    (∀ s : PyStr, (∀ c ∈ s, c < 128) → pyFloatParse (pyStrip s) = Option.none →
      safe_int (PyVal.str s) = 0) ∧
    (∀ (s : PyStr) (nd : Int × Nat), (∀ c ∈ s, c < 128) →
      pyFloatParse (pyStrip s) = some nd → roundDouble nd = Option.none →
      safe_int (PyVal.str s) = 0) ∧
    (∀ (s : PyStr) (nd dd : Int × Nat), (∀ c ∈ s, c < 128) →
      pyFloatParse (pyStrip s) = some nd → roundDouble nd = some dd →
      safe_int (PyVal.str s) = truncVal dd) ∧
    (∀ n : Int, n.natAbs ≤ 2 ^ 53 → safe_int (PyVal.int n) = n) ∧
    safe_int (PyVal.str (pyS ("12.0"))) = 12 ∧
    safe_int (PyVal.str (pyS ("1_0"))) = 10 ∧
    safe_int (PyVal.str (pyS ("9007199254740993"))) = 9007199254740992 := by
  refine ⟨by decide, by decide, ?_, by decide, by decide, ?_, ?_, ?_,
    fun n h => safe_int_int_small h, by decide, by decide, by decide⟩
  · intro s h
    have h2 : pyStrip (pyStr (PyVal.str s)) = [] := by simpa [pyStr] using h
    simp [safe_int, h2]
  · intro s _ h
    unfold safe_int
    by_cases hg : (PyVal.str s = PyVal.none ∨ PyVal.str s = PyVal.str [] ∨
        pyStrip (pyStr (PyVal.str s)) ∈ ([[], pyS ("nan"), pyS ("NaN")] : List PyStr))
    · rw [if_pos hg]
    · rw [if_neg hg]
      simp only [pyStr]
      rw [h]
  · intro s nd _ hp hr
    unfold safe_int
    rw [if_neg (safe_int_guard_false hp)]
    simp only [pyStr]
    simp only [hp]
    simp only [hr]
  · intro s nd dd _ hp hr
    unfold safe_int
    rw [if_neg (safe_int_guard_false hp)]
    simp only [pyStr]
    simp only [hp]
    simp only [hr]

/-- CLAIM C6, witness: the universally quantified clauses of the amended
claim applied at concrete inputs (whitespace, an unparseable string, an
overflowing literal, an exactly representable fraction and a small
integer). -/
theorem claim_C6_witness :
    safe_int (PyVal.str (pyS ("  "))) = 0 ∧
    safe_int (PyVal.str (pyS ("abc"))) = 0 ∧
    safe_int (PyVal.str (pyS ("1e500"))) = 0 ∧
    safe_int (PyVal.str (pyS ("-2.5"))) = -2 ∧
    safe_int (PyVal.int 42) = 42 :=
  ⟨claim_C6.2.2.1 (pyS ("  ")) (by decide),
   claim_C6.2.2.2.2.2.1 (pyS ("abc")) (by decide) (by decide),
   claim_C6.2.2.2.2.2.2.1 (pyS ("1e500")) ((10 : Int) ^ 500, 1) (by decide)
     (by decide) (by decide),
   (claim_C6.2.2.2.2.2.2.2.1 (pyS ("-2.5")) ((-25 : Int), 10)
     ((-5629499534213120 : Int), 2251799813685248) (by decide) (by decide)
     (by decide)).trans (by decide),
   claim_C6.2.2.2.2.2.2.2.2.1 42 (by norm_num)⟩

theorem head?_dropWhile {p : Nat → Bool} {l : List Nat} {a : Nat}
    (h : (l.dropWhile p).head? = some a) : p a = false := by
  induction l with
  | nil => simp [List.dropWhile] at h
  | cons b t ih =>
    rw [List.dropWhile_cons] at h
    by_cases hb : p b
    · rw [if_pos hb] at h
      exact ih h
    · rw [if_neg hb] at h
      simp only [List.head?_cons, Option.some.injEq] at h
      subst h
      exact Bool.eq_false_iff.mpr hb

theorem getLast?_dropWhile {p : Nat → Bool} {l : List Nat}
    (h : l.dropWhile p ≠ []) : (l.dropWhile p).getLast? = l.getLast? := by
  induction l with
  | nil => simp [List.dropWhile] at h
  | cons b t ih =>
    rw [List.dropWhile_cons]
    by_cases hb : p b
    · rw [List.dropWhile_cons, if_pos hb] at h
      rw [if_pos hb, ih h]
      have ht : t ≠ [] := by
        intro he
        rw [he] at h
        simp [List.dropWhile] at h
      cases t with
      | nil => exact absurd rfl ht
      | cons c u => simp [List.getLast?_cons_cons]
    · rw [if_neg hb]

theorem mem_pyStrip {l : PyStr} {c : Nat} (h : c ∈ pyStrip l) : c ∈ l := by
  unfold pyStrip trimLeft trimRight at h
  have h1 := (List.dropWhile_sublist _).mem h
  have h2 := List.mem_reverse.mp (List.mem_reverse.mp h1 |> (List.dropWhile_sublist _).mem)
  exact h2

theorem lowerCode_lt {c : Nat} (h : c < 128) : lowerCode c < 128 := by
  unfold lowerCode
  split <;> omega

theorem lowerCode_not_upper (c : Nat) : ¬(65 ≤ lowerCode c ∧ lowerCode c ≤ 90) := by
  unfold lowerCode
  split <;> omega

theorem lowerCode_space (c : Nat) : isSpaceCode (lowerCode c) = isSpaceCode c := by
  unfold lowerCode
  split
  · rw [isSpaceCode_false_of_range (by omega) (by omega),
      isSpaceCode_false_of_range (by omega) (by omega)]
  · rfl

theorem getLast?_map (f : Nat → Nat) (l : List Nat) :
    (l.map f).getLast? = l.getLast?.map f := by
  rw [← List.head?_reverse, ← List.map_reverse, List.head?_map, List.head?_reverse]

theorem pyStrip_head {l : PyStr} {c : Nat} (h : (pyStrip l).head? = some c) :
    isSpaceCode c = false := by
  unfold pyStrip trimLeft at h
  exact head?_dropWhile h

theorem pyStrip_getLast {l : PyStr} {c : Nat} (h : (pyStrip l).getLast? = some c) :
    isSpaceCode c = false := by
  unfold pyStrip trimLeft trimRight at h
  have hne : (List.dropWhile isSpaceCode (List.dropWhile isSpaceCode l.reverse).reverse) ≠ [] := by
    intro he
    rw [he] at h
    simp at h
  rw [getLast?_dropWhile hne, ← List.head?_reverse, List.reverse_reverse] at h
  exact head?_dropWhile h

/-- CLAIM C8.  Name normalisation produces a lowercase, accent-stripped,
whitespace-trimmed key: the listed Jose variants all map to jose,
non-string inputs map to the empty key, and for every string input the
result contains only ASCII code points with no uppercase letters and
neither starts nor ends with whitespace. -/
theorem claim_C8 :
    normalise_name (PyVal.str (pyS ("José"))) = pyS ("jose") ∧
    normalise_name (PyVal.str (pyS ("Jose"))) = pyS ("jose") ∧
    normalise_name (PyVal.str (pyS (" JOSE "))) = pyS ("jose") ∧
    normalise_name PyVal.none = [] ∧
    normalise_name PyVal.nan = [] ∧
    (∀ n : Int, normalise_name (PyVal.int n) = []) ∧
    (∀ s : PyStr, ∀ c ∈ normalise_name (PyVal.str s), c < 128 ∧ ¬(65 ≤ c ∧ c ≤ 90)) ∧
    (∀ (s : PyStr) (c : Nat), (normalise_name (PyVal.str s)).head? = some c →
      isSpaceCode c = false) ∧
    (∀ (s : PyStr) (c : Nat), (normalise_name (PyVal.str s)).getLast? = some c →
      isSpaceCode c = false) := by
  refine ⟨by decide, by decide, by decide, rfl, rfl, fun n => rfl, ?_, ?_, ?_⟩
  · intro s c hc
    unfold normalise_name pyLower at hc
    obtain ⟨c0, hc0, rfl⟩ := List.mem_map.mp hc
    have hmem := mem_pyStrip hc0
    have hlt : c0 < 128 := by
      have := List.of_mem_filter hmem
      simpa using this
    exact ⟨lowerCode_lt hlt, lowerCode_not_upper c0⟩
  · intro s c hc
    unfold normalise_name pyLower at hc
    rw [List.head?_map] at hc
    cases hh : (pyStrip ((s.flatMap nfkdCode).filter (fun c => decide (c < 128)))).head? with
    | none => rw [hh] at hc; simp at hc
    | some c0 =>
      rw [hh] at hc
      have hc0 : lowerCode c0 = c := by simpa using hc
      rw [← hc0, lowerCode_space]
      exact pyStrip_head hh
  · intro s c hc
    unfold normalise_name pyLower at hc
    rw [getLast?_map] at hc
    cases hh : (pyStrip ((s.flatMap nfkdCode).filter (fun c => decide (c < 128)))).getLast? with
    | none => rw [hh] at hc; simp at hc
    | some c0 =>
      rw [hh] at hc
      have hc0 : lowerCode c0 = c := by simpa using hc
      rw [← hc0, lowerCode_space]
      exact pyStrip_getLast hh

/-- CLAIM C8, witness: the quantified clauses of claim_C8 applied at
concrete inputs (the code points 97, 106, 101 are a, j, e). -/
theorem claim_C8_witness :
    (97 < 128 ∧ ¬(65 ≤ 97 ∧ 97 ≤ 90)) ∧
    isSpaceCode 106 = false ∧
    isSpaceCode 101 = false :=
  ⟨claim_C8.2.2.2.2.2.2.1 (pyS (" Aé")) 97 (by decide),
   claim_C8.2.2.2.2.2.2.2.1 (pyS ("José")) 106 (by decide),
   claim_C8.2.2.2.2.2.2.2.2 (pyS ("José")) 101 (by decide)⟩

/-- CLAIM C9, witness: the first-code clause of claim_C9 applied at a
concrete split of DF,MF. -/
theorem claim_C9_witness :
    classifyPos (pyS ("DF") ++ 44 :: pyS ("MF")) = classifyPos (pyS ("DF")) :=
  claim_C9.2.2.2.2 (pyS ("DF")) (pyS ("MF")) (by decide)

theorem enrichRow_dget {upd : Player → Row → Player} {m : Players} {row : Row}
    {k : PyStr} {q : Player} (h : dget (enrichRow upd m row) k = some q) :
    ∃ p, dget m k = some p ∧ (q = p ∨ q = upd p row) := by
  unfold enrichRow at h
  simp only [] at h
  split at h
  · exact ⟨q, h, Or.inl rfl⟩
  · split at h
    · exact ⟨q, h, Or.inl rfl⟩
    · rename_i p heq
      rw [dget_dset] at h
      split at h
      · rename_i hkey
        refine ⟨p, ?_, Or.inr ?_⟩
        · rw [← hkey]; exact heq
        · exact (Option.some.injEq _ _ ▸ h).symm
      · exact ⟨q, h, Or.inl rfl⟩

theorem enrichRow_dget_some (upd : Player → Row → Player) {m : Players} (row : Row)
    {k : PyStr} {p : Player} (h : dget m k = some p) :
    ∃ q, dget (enrichRow upd m row) k = some q ∧ (q = p ∨ q = upd p row) := by
  unfold enrichRow
  simp only []
  split
  · exact ⟨p, h, Or.inl rfl⟩
  · cases heq : dget m (normKey (rowName row)) with
    | none => exact ⟨p, h, Or.inl rfl⟩
    | some p0 =>
      rw [dget_dset]
      by_cases hkey : normKey (rowName row) = k
      · rw [if_pos hkey]
        refine ⟨upd p0 row, rfl, Or.inr ?_⟩
        rw [hkey] at heq
        rw [h] at heq
        cases heq
        rfl
      · rw [if_neg hkey]
        exact ⟨p, h, Or.inl rfl⟩

theorem enrichRow_dget_none {upd : Player → Row → Player} {m : Players} {row : Row}
    {k : PyStr} :
    dget (enrichRow upd m row) k = Option.none ↔ dget m k = Option.none := by
  constructor
  · intro h
    cases hm : dget m k with
    | none => rfl
    | some p =>
      obtain ⟨q, hq, _⟩ := enrichRow_dget_some upd row hm
      rw [h] at hq
      exact Option.noConfusion hq
  · intro h
    cases he : dget (enrichRow upd m row) k with
    | none => rfl
    | some q =>
      obtain ⟨p, hp, _⟩ := enrichRow_dget he
      rw [h] at hp
      exact Option.noConfusion hp

theorem enrichRow_values {upd : Player → Row → Player} {m : Players} {row : Row}
    {q : Player} (h : q ∈ dvalues (enrichRow upd m row)) :
    ∃ p ∈ dvalues m, q = p ∨ q = upd p row := by
  unfold enrichRow at h
  simp only [] at h
  split at h
  · exact ⟨q, h, Or.inl rfl⟩
  · split at h
    · exact ⟨q, h, Or.inl rfl⟩
    · rename_i p heq
      rcases dvalues_dset_subset h with h2 | h2
      · exact ⟨p, dget_dvalues heq, Or.inr h2⟩
      · exact ⟨q, h2, Or.inl rfl⟩

theorem enrichFold_dget {upd : Player → Row → Player} {R : Player → Player → Prop}
    (hrefl : ∀ p, R p p) (htrans : ∀ {a b c : Player}, R a b → R b c → R a c)
    (hupd : ∀ (p : Player) (row : Row), R p (upd p row)) :
    ∀ (t : Table) (m : Players) (k : PyStr) (q : Player),
      dget (t.foldl (enrichRow upd) m) k = some q →
      ∃ p, dget m k = some p ∧ R p q := by
  intro t
  induction t with
  | nil => exact fun m k q h => ⟨q, h, hrefl q⟩
  | cons row t ih =>
    intro m k q h
    rw [List.foldl_cons] at h
    obtain ⟨p1, hp1, hr1⟩ := ih _ k q h
    obtain ⟨p, hp, hr0⟩ := enrichRow_dget hp1
    refine ⟨p, hp, ?_⟩
    rcases hr0 with rfl | rfl
    · exact hr1
    · exact htrans (hupd p row) hr1

theorem enrichFold_dget_some {upd : Player → Row → Player} {R : Player → Player → Prop}
    (hrefl : ∀ p, R p p) (htrans : ∀ {a b c : Player}, R a b → R b c → R a c)
    (hupd : ∀ (p : Player) (row : Row), R p (upd p row)) :
    ∀ (t : Table) (m : Players) (k : PyStr) (p : Player),
      dget m k = some p →
      ∃ q, dget (t.foldl (enrichRow upd) m) k = some q ∧ R p q := by
  intro t
  induction t with
  | nil => exact fun m k p h => ⟨p, h, hrefl p⟩
  | cons row t ih =>
    intro m k p h
    rw [List.foldl_cons]
    obtain ⟨q1, hq1, hr1⟩ := enrichRow_dget_some upd row h
    obtain ⟨q, hq, hr⟩ := ih _ k q1 hq1
    refine ⟨q, hq, ?_⟩
    rcases hr1 with rfl | rfl
    · exact hr
    · exact htrans (hupd p row) hr

theorem enrichFold_values {upd : Player → Row → Player} {R : Player → Player → Prop}
    (hrefl : ∀ p, R p p) (htrans : ∀ {a b c : Player}, R a b → R b c → R a c)
    (hupd : ∀ (p : Player) (row : Row), R p (upd p row)) :
    ∀ (t : Table) (m : Players) (q : Player),
      q ∈ dvalues (t.foldl (enrichRow upd) m) →
      ∃ p ∈ dvalues m, R p q := by
  intro t
  induction t with
  | nil => exact fun m q h => ⟨q, h, hrefl q⟩
  | cons row t ih =>
    intro m q h
    rw [List.foldl_cons] at h
    obtain ⟨p1, hp1, hr1⟩ := ih _ q h
    obtain ⟨p, hp, hr0⟩ := enrichRow_values hp1
    refine ⟨p, hp, ?_⟩
    rcases hr0 with rfl | rfl
    · exact hr1
    · exact htrans (hupd p row) hr1

theorem enrichFold_dget_none {upd : Player → Row → Player} :
    ∀ (t : Table) (m : Players) (k : PyStr),
      dget (t.foldl (enrichRow upd) m) k = Option.none ↔ dget m k = Option.none := by
  intro t
  induction t with
  | nil => exact fun m k => Iff.rfl
  | cons row t ih =>
    intro m k
    rw [List.foldl_cons, ih, enrichRow_dget_none]

theorem enrichPass_values (upd : Player → Row → Player) {R : Player → Player → Prop}
    (hrefl : ∀ p, R p p) (htrans : ∀ {a b c : Player}, R a b → R b c → R a c)
    (hupd : ∀ (p : Player) (row : Row), R p (upd p row)) :
    ∀ (tO : Option Table) (m : Players) (q : Player),
      q ∈ dvalues (enrichPass (enrichRow upd) m tO) →
      ∃ p ∈ dvalues m, R p q := by
  intro tO m q h
  cases tO with
  | none => exact ⟨q, h, hrefl q⟩
  | some t => exact enrichFold_values hrefl htrans hupd t m q h

theorem enrichPass_dget (upd : Player → Row → Player) {R : Player → Player → Prop}
    (hrefl : ∀ p, R p p) (htrans : ∀ {a b c : Player}, R a b → R b c → R a c)
    (hupd : ∀ (p : Player) (row : Row), R p (upd p row)) :
    ∀ (tO : Option Table) (m : Players) (k : PyStr) (q : Player),
      dget (enrichPass (enrichRow upd) m tO) k = some q →
      ∃ p, dget m k = some p ∧ R p q := by
  intro tO m k q h
  cases tO with
  | none => exact ⟨q, h, hrefl q⟩
  | some t => exact enrichFold_dget hrefl htrans hupd t m k q h

theorem enrichPass_dget_some (upd : Player → Row → Player) {R : Player → Player → Prop}
    (hrefl : ∀ p, R p p) (htrans : ∀ {a b c : Player}, R a b → R b c → R a c)
    (hupd : ∀ (p : Player) (row : Row), R p (upd p row)) :
    ∀ (tO : Option Table) (m : Players) (k : PyStr) (p : Player),
      dget m k = some p →
      ∃ q, dget (enrichPass (enrichRow upd) m tO) k = some q ∧ R p q := by
  intro tO m k p h
  cases tO with
  | none => exact ⟨p, h, hrefl p⟩
  | some t => exact enrichFold_dget_some hrefl htrans hupd t m k p h

theorem enrichPass_dget_none {upd : Player → Row → Player} :
    ∀ (tO : Option Table) (m : Players) (k : PyStr),
      dget (enrichPass (enrichRow upd) m tO) k = Option.none ↔ dget m k = Option.none := by
  intro tO m k
  cases tO with
  | none => exact Iff.rfl
  | some t => exact enrichFold_dget_none t m k

theorem seedRow_values {pyhash : PyStr → Int} {m : Players} {row : Row} {q : Player}
    (h : q ∈ dvalues (seedRow pyhash m row)) :
    q ∈ dvalues m ∨
      (rowSurvives row ∧ q.name = rowName row ∧
       q.id = ((pyhash (rowName row)).natAbs : Int) % 100000 ∧
       q.cleanSheets = 0 ∧ q.saves = 0 ∧ q.penaltySaves = 0 ∧ q.goalsConceded = 0 ∧
       q.tacklesWon = 0 ∧ q.interceptions = 0 ∧ q.keyPasses = 0 ∧
       q.bigChancesCreated = 0 ∧ q.motm = 0 ∧ q.points = 0) := by
  unfold seedRow at h
  simp only [] at h
  split at h
  · exact Or.inl h
  · rename_i hg
    rcases dvalues_dset_subset h with h2 | h2
    · refine Or.inr ⟨?_, ?_⟩
      · unfold rowSurvives
        push_neg at hg
        exact hg
      · subst h2
        exact ⟨rfl, rfl, rfl, rfl, rfl, rfl, rfl, rfl, rfl, rfl, rfl, rfl⟩
    · exact Or.inl h2

theorem seedFold_values {pyhash : PyStr → Int} :
    ∀ (t : Table) (m : Players) (q : Player),
      q ∈ dvalues (t.foldl (seedRow pyhash) m) →
      q ∈ dvalues m ∨
        ∃ row ∈ t, rowSurvives row ∧ q.name = rowName row ∧
          q.id = ((pyhash (rowName row)).natAbs : Int) % 100000 ∧
          q.cleanSheets = 0 ∧ q.saves = 0 ∧ q.penaltySaves = 0 ∧ q.goalsConceded = 0 ∧
          q.tacklesWon = 0 ∧ q.interceptions = 0 ∧ q.keyPasses = 0 ∧
          q.bigChancesCreated = 0 ∧ q.motm = 0 ∧ q.points = 0 := by
  intro t
  induction t with
  | nil => exact fun m q h => Or.inl h
  | cons row t ih =>
    intro m q h
    rw [List.foldl_cons] at h
    rcases ih _ q h with h2 | ⟨row2, hrow2, hrest⟩
    · rcases seedRow_values h2 with h3 | h3
      · exact Or.inl h3
      · exact Or.inr ⟨row, List.mem_cons_self row t, h3⟩
    · exact Or.inr ⟨row2, List.mem_cons_of_mem row hrow2, hrest⟩

theorem seedDict_values {pyhash : PyStr → Int} {t : Table} {q : Player}
    (h : q ∈ dvalues (seedDict pyhash t)) :
    ∃ row ∈ t, rowSurvives row ∧ q.name = rowName row ∧
      q.id = ((pyhash (rowName row)).natAbs : Int) % 100000 ∧
      q.cleanSheets = 0 ∧ q.saves = 0 ∧ q.penaltySaves = 0 ∧ q.goalsConceded = 0 ∧
      q.tacklesWon = 0 ∧ q.interceptions = 0 ∧ q.keyPasses = 0 ∧
      q.bigChancesCreated = 0 ∧ q.motm = 0 ∧ q.points = 0 := by
  rcases seedFold_values t [] q h with h2 | h2
  · simp [dvalues] at h2
  · exact h2

/-- Agreement on every field a pass does not own: the goalkeeping pass
owns cleanSheets, saves, penaltySaves and goalsConceded. -/
def agreeNonGK (p q : Player) : Prop :=
  p.id = q.id ∧ p.name = q.name ∧ p.club = q.club ∧ p.pos = q.pos ∧
  p.goals = q.goals ∧ p.assists = q.assists ∧ p.yellowCards = q.yellowCards ∧
  p.redCards = q.redCards ∧ p.ownGoals = q.ownGoals ∧
  p.penaltiesMissed = q.penaltiesMissed ∧ p.shotsOnTarget = q.shotsOnTarget ∧
  p.tacklesWon = q.tacklesWon ∧ p.interceptions = q.interceptions ∧
  p.keyPasses = q.keyPasses ∧ p.bigChancesCreated = q.bigChancesCreated ∧
  p.motm = q.motm ∧ p.points = q.points

/-- Agreement on every field the defensive pass does not own (it owns
tacklesWon and interceptions). -/
def agreeNonDef (p q : Player) : Prop :=
  p.id = q.id ∧ p.name = q.name ∧ p.club = q.club ∧ p.pos = q.pos ∧
  p.goals = q.goals ∧ p.assists = q.assists ∧ p.yellowCards = q.yellowCards ∧
  p.redCards = q.redCards ∧ p.ownGoals = q.ownGoals ∧
  p.penaltiesMissed = q.penaltiesMissed ∧ p.shotsOnTarget = q.shotsOnTarget ∧
  p.cleanSheets = q.cleanSheets ∧ p.saves = q.saves ∧
  p.penaltySaves = q.penaltySaves ∧ p.goalsConceded = q.goalsConceded ∧
  p.keyPasses = q.keyPasses ∧ p.bigChancesCreated = q.bigChancesCreated ∧
  p.motm = q.motm ∧ p.points = q.points

/-- Agreement on every field the passing pass does not own (it owns
keyPasses and bigChancesCreated). -/
def agreeNonPass (p q : Player) : Prop :=
  p.id = q.id ∧ p.name = q.name ∧ p.club = q.club ∧ p.pos = q.pos ∧
  p.goals = q.goals ∧ p.assists = q.assists ∧ p.yellowCards = q.yellowCards ∧
  p.redCards = q.redCards ∧ p.ownGoals = q.ownGoals ∧
  p.penaltiesMissed = q.penaltiesMissed ∧ p.shotsOnTarget = q.shotsOnTarget ∧
  p.cleanSheets = q.cleanSheets ∧ p.saves = q.saves ∧
  p.penaltySaves = q.penaltySaves ∧ p.goalsConceded = q.goalsConceded ∧
  p.tacklesWon = q.tacklesWon ∧ p.interceptions = q.interceptions ∧
  p.motm = q.motm ∧ p.points = q.points

/-- Agreement on the identity and standard-stat fields assigned by the
seeding pass and listed by the frame claim. -/
def agreeSeeded (p q : Player) : Prop :=
  p.id = q.id ∧ p.name = q.name ∧ p.club = q.club ∧ p.pos = q.pos ∧
  p.goals = q.goals ∧ p.assists = q.assists ∧ p.yellowCards = q.yellowCards ∧
  p.redCards = q.redCards ∧ p.ownGoals = q.ownGoals ∧
  p.penaltiesMissed = q.penaltiesMissed ∧ p.shotsOnTarget = q.shotsOnTarget

theorem agreeNonGK_refl (p : Player) : agreeNonGK p p :=
  ⟨rfl, rfl, rfl, rfl, rfl, rfl, rfl, rfl, rfl, rfl, rfl, rfl, rfl, rfl, rfl, rfl, rfl⟩

theorem agreeNonDef_refl (p : Player) : agreeNonDef p p :=
  ⟨rfl, rfl, rfl, rfl, rfl, rfl, rfl, rfl, rfl, rfl, rfl, rfl, rfl, rfl, rfl, rfl,
   rfl, rfl, rfl⟩

theorem agreeNonPass_refl (p : Player) : agreeNonPass p p :=
  ⟨rfl, rfl, rfl, rfl, rfl, rfl, rfl, rfl, rfl, rfl, rfl, rfl, rfl, rfl, rfl, rfl,
   rfl, rfl, rfl⟩

theorem agreeNonGK_trans {a b c : Player} (h1 : agreeNonGK a b) (h2 : agreeNonGK b c) :
    agreeNonGK a c := by
  unfold agreeNonGK at *
  obtain ⟨e1, e2, e3, e4, e5, e6, e7, e8, e9, e10, e11, e12, e13, e14, e15, e16, e17⟩ := h1
  obtain ⟨f1, f2, f3, f4, f5, f6, f7, f8, f9, f10, f11, f12, f13, f14, f15, f16, f17⟩ := h2
  exact ⟨e1.trans f1, e2.trans f2, e3.trans f3, e4.trans f4, e5.trans f5, e6.trans f6,
    e7.trans f7, e8.trans f8, e9.trans f9, e10.trans f10, e11.trans f11, e12.trans f12,
    e13.trans f13, e14.trans f14, e15.trans f15, e16.trans f16, e17.trans f17⟩

theorem agreeNonDef_trans {a b c : Player} (h1 : agreeNonDef a b) (h2 : agreeNonDef b c) :
    agreeNonDef a c := by
  unfold agreeNonDef at *
  obtain ⟨e1, e2, e3, e4, e5, e6, e7, e8, e9, e10, e11, e12, e13, e14, e15, e16, e17,
    e18, e19⟩ := h1
  obtain ⟨f1, f2, f3, f4, f5, f6, f7, f8, f9, f10, f11, f12, f13, f14, f15, f16, f17,
    f18, f19⟩ := h2
  exact ⟨e1.trans f1, e2.trans f2, e3.trans f3, e4.trans f4, e5.trans f5, e6.trans f6,
    e7.trans f7, e8.trans f8, e9.trans f9, e10.trans f10, e11.trans f11, e12.trans f12,
    e13.trans f13, e14.trans f14, e15.trans f15, e16.trans f16, e17.trans f17,
    e18.trans f18, e19.trans f19⟩

theorem agreeNonPass_trans {a b c : Player} (h1 : agreeNonPass a b)
    (h2 : agreeNonPass b c) : agreeNonPass a c := by
  unfold agreeNonPass at *
  obtain ⟨e1, e2, e3, e4, e5, e6, e7, e8, e9, e10, e11, e12, e13, e14, e15, e16, e17,
    e18, e19⟩ := h1
  obtain ⟨f1, f2, f3, f4, f5, f6, f7, f8, f9, f10, f11, f12, f13, f14, f15, f16, f17,
    f18, f19⟩ := h2
  exact ⟨e1.trans f1, e2.trans f2, e3.trans f3, e4.trans f4, e5.trans f5, e6.trans f6,
    e7.trans f7, e8.trans f8, e9.trans f9, e10.trans f10, e11.trans f11, e12.trans f12,
    e13.trans f13, e14.trans f14, e15.trans f15, e16.trans f16, e17.trans f17,
    e18.trans f18, e19.trans f19⟩

theorem agreeNonGK_update (p : Player) (row : Row) : agreeNonGK p (gkUpdate p row) :=
  ⟨rfl, rfl, rfl, rfl, rfl, rfl, rfl, rfl, rfl, rfl, rfl, rfl, rfl, rfl, rfl, rfl, rfl⟩

theorem agreeNonDef_update (p : Player) (row : Row) : agreeNonDef p (defUpdate p row) :=
  ⟨rfl, rfl, rfl, rfl, rfl, rfl, rfl, rfl, rfl, rfl, rfl, rfl, rfl, rfl, rfl, rfl,
   rfl, rfl, rfl⟩

theorem agreeNonPass_update (p : Player) (row : Row) : agreeNonPass p (passUpdate p row) :=
  ⟨rfl, rfl, rfl, rfl, rfl, rfl, rfl, rfl, rfl, rfl, rfl, rfl, rfl, rfl, rfl, rfl,
   rfl, rfl, rfl⟩

theorem agreeNonGK_seeded {p q : Player} (h : agreeNonGK p q) : agreeSeeded p q :=
  ⟨h.1, h.2.1, h.2.2.1, h.2.2.2.1, h.2.2.2.2.1, h.2.2.2.2.2.1, h.2.2.2.2.2.2.1,
   h.2.2.2.2.2.2.2.1, h.2.2.2.2.2.2.2.2.1, h.2.2.2.2.2.2.2.2.2.1,
   h.2.2.2.2.2.2.2.2.2.2.1⟩

theorem agreeNonDef_seeded {p q : Player} (h : agreeNonDef p q) : agreeSeeded p q :=
  ⟨h.1, h.2.1, h.2.2.1, h.2.2.2.1, h.2.2.2.2.1, h.2.2.2.2.2.1, h.2.2.2.2.2.2.1,
   h.2.2.2.2.2.2.2.1, h.2.2.2.2.2.2.2.2.1, h.2.2.2.2.2.2.2.2.2.1,
   h.2.2.2.2.2.2.2.2.2.2.1⟩

theorem agreeNonPass_seeded {p q : Player} (h : agreeNonPass p q) : agreeSeeded p q :=
  ⟨h.1, h.2.1, h.2.2.1, h.2.2.2.1, h.2.2.2.2.1, h.2.2.2.2.2.1, h.2.2.2.2.2.2.1,
   h.2.2.2.2.2.2.2.1, h.2.2.2.2.2.2.2.2.1, h.2.2.2.2.2.2.2.2.2.1,
   h.2.2.2.2.2.2.2.2.2.2.1⟩

theorem agreeSeeded_trans {a b c : Player} (h1 : agreeSeeded a b) (h2 : agreeSeeded b c) :
    agreeSeeded a c :=
  ⟨h1.1.trans h2.1, h1.2.1.trans h2.2.1, h1.2.2.1.trans h2.2.2.1,
   h1.2.2.2.1.trans h2.2.2.2.1, h1.2.2.2.2.1.trans h2.2.2.2.2.1,
   h1.2.2.2.2.2.1.trans h2.2.2.2.2.2.1, h1.2.2.2.2.2.2.1.trans h2.2.2.2.2.2.2.1,
   h1.2.2.2.2.2.2.2.1.trans h2.2.2.2.2.2.2.2.1,
   h1.2.2.2.2.2.2.2.2.1.trans h2.2.2.2.2.2.2.2.2.1,
   h1.2.2.2.2.2.2.2.2.2.1.trans h2.2.2.2.2.2.2.2.2.2.1,
   h1.2.2.2.2.2.2.2.2.2.2.trans h2.2.2.2.2.2.2.2.2.2.2⟩

theorem gkRow_eq : gkRow = enrichRow gkUpdate := rfl

theorem defRow_eq : defRow = enrichRow defUpdate := rfl

theorem passRow_eq : passRow = enrichRow passUpdate := rfl

theorem runPipeline_some {pyhash : PyStr → Int} {stdT : Table}
    {gkT defT pasT : Option Table} {out : Output}
    (h : runPipeline pyhash (some stdT) gkT defT pasT = some out) :
    out.players = sortPlayers (scoredList pyhash stdT gkT defT pasT) := by
  unfold runPipeline at h
  cases h
  rfl

theorem mem_players_of_run {pyhash : PyStr → Int} {stdT : Table}
    {gkT defT pasT : Option Table} {out : Output} {p : Player}
    (hrun : runPipeline pyhash (some stdT) gkT defT pasT = some out)
    (hp : p ∈ out.players) :
    ∃ q ∈ dvalues (mergedDict pyhash stdT gkT defT pasT),
      p = { q with points := calculate_points q } := by
  rw [runPipeline_some hrun] at hp
  have hp2 : p ∈ scoredList pyhash stdT gkT defT pasT :=
    ((List.perm_insertionSort byPoints _).mem_iff).mp hp
  obtain ⟨q, hq, hqe⟩ := List.mem_map.mp hp2
  exact ⟨q, hq, hqe.symm⟩

theorem mergedDict_values {R : Player → Player → Prop}
    (hrefl : ∀ p, R p p) (htrans : ∀ {a b c : Player}, R a b → R b c → R a c)
    (hgk : ∀ (p : Player) (row : Row), R p (gkUpdate p row))
    (hdef : ∀ (p : Player) (row : Row), R p (defUpdate p row))
    (hpass : ∀ (p : Player) (row : Row), R p (passUpdate p row))
    {pyhash : PyStr → Int} {stdT : Table} {gkT defT pasT : Option Table} {q : Player}
    (hq : q ∈ dvalues (mergedDict pyhash stdT gkT defT pasT)) :
    ∃ p ∈ dvalues (seedDict pyhash stdT), R p q := by
  unfold mergedDict at hq
  rw [passRow_eq, defRow_eq, gkRow_eq] at hq
  obtain ⟨p2, hp2, hr2⟩ := enrichPass_values passUpdate hrefl htrans hpass _ _ _ hq
  obtain ⟨p1, hp1, hr1⟩ := enrichPass_values defUpdate hrefl htrans hdef _ _ _ hp2
  obtain ⟨p0, hp0, hr0⟩ := enrichPass_values gkUpdate hrefl htrans hgk _ _ _ hp1
  exact ⟨p0, hp0, htrans hr0 (htrans hr1 hr2)⟩

/-- CLAIM C3.  A player whose normalised name key occurs in no surviving
row of the primary table never appears in the final output (every output
record traces back to a surviving primary row with the same key), and
the enrichment passes never enlarge the key set of the record mapping. -/
theorem claim_C3 (pyhash : PyStr → Int) (stdT : Table) (gkT defT pasT : Option Table) :
    (∀ (out : Output) (p : Player),
      runPipeline pyhash (some stdT) gkT defT pasT = some out → p ∈ out.players →
      ∃ row ∈ stdT, rowSurvives row ∧ normKey (rowName row) = normKey p.name) ∧
    (∀ k : PyStr, dget (seedDict pyhash stdT) k = Option.none →
      dget (mergedDict pyhash stdT gkT defT pasT) k = Option.none) := by
  constructor
  · intro out p hrun hp
    obtain ⟨q, hq, rfl⟩ := mem_players_of_run hrun hp
    obtain ⟨p0, hp0, hnm⟩ := mergedDict_values (R := fun a b => a.name = b.name)
      (fun p => rfl) (fun h1 h2 => h1.trans h2) (fun p row => rfl) (fun p row => rfl)
      (fun p row => rfl) hq
    obtain ⟨row, hrow, hsurv, hqname, _⟩ := seedDict_values hp0
    refine ⟨row, hrow, hsurv, ?_⟩
    show normKey (rowName row) = normKey q.name
    rw [← hnm, ← hqname]
  · intro k h
    unfold mergedDict
    rw [passRow_eq, defRow_eq, gkRow_eq,
      enrichPass_dget_none, enrichPass_dget_none, enrichPass_dget_none]
    exact h

/-- CLAIM C10.  Every record in the final output has an id in the range
0 to 99999: it is the absolute value of the name hash reduced modulo
100000 at seeding time and no later stage modifies it. -/
theorem claim_C10 (pyhash : PyStr → Int) (stdT : Table) (gkT defT pasT : Option Table)
    (out : Output) (p : Player)
    (hrun : runPipeline pyhash (some stdT) gkT defT pasT = some out)
    (hp : p ∈ out.players) : 0 ≤ p.id ∧ p.id < 100000 := by
  obtain ⟨q, hq, rfl⟩ := mem_players_of_run hrun hp
  obtain ⟨p0, hp0, hid⟩ := mergedDict_values (R := fun a b => a.id = b.id)
    (fun p => rfl) (fun h1 h2 => h1.trans h2) (fun p row => rfl) (fun p row => rfl)
    (fun p row => rfl) hq
  obtain ⟨row, hrow, hsurv, _, hpid, _⟩ := seedDict_values hp0
  show 0 ≤ q.id ∧ q.id < 100000
  rw [← hid, hpid]
  constructor
  · exact Int.emod_nonneg _ (by norm_num)
  · exact Int.emod_lt_of_pos _ (by norm_num)

/-- CLAIM C4.  Each enrichment pass overwrites only the fields owned by
its source table and leaves every other field of every record unchanged;
consequently the identity and standard-stat fields of every record agree
between the end of the seeding pass and the end of all three enrichment
passes. -/
theorem claim_C4 :
    (∀ (m : Players) (row : Row) (k : PyStr) (q : Player),
      dget (gkRow m row) k = some q → ∃ p, dget m k = some p ∧ agreeNonGK p q) ∧
    (∀ (m : Players) (row : Row) (k : PyStr) (q : Player),
      dget (defRow m row) k = some q → ∃ p, dget m k = some p ∧ agreeNonDef p q) ∧
    (∀ (m : Players) (row : Row) (k : PyStr) (q : Player),
      dget (passRow m row) k = some q → ∃ p, dget m k = some p ∧ agreeNonPass p q) ∧
    (∀ (pyhash : PyStr → Int) (stdT : Table) (gkT defT pasT : Option Table)
      (k : PyStr) (p0 : Player), dget (seedDict pyhash stdT) k = some p0 →
      ∃ p1, dget (mergedDict pyhash stdT gkT defT pasT) k = some p1 ∧
        agreeSeeded p0 p1) := by
  refine ⟨?_, ?_, ?_, ?_⟩
  · intro m row k q h
    rw [gkRow_eq] at h
    obtain ⟨p, hp, hor⟩ := enrichRow_dget h
    rcases hor with rfl | rfl
    · exact ⟨_, hp, agreeNonGK_refl _⟩
    · exact ⟨_, hp, agreeNonGK_update _ row⟩
  · intro m row k q h
    rw [defRow_eq] at h
    obtain ⟨p, hp, hor⟩ := enrichRow_dget h
    rcases hor with rfl | rfl
    · exact ⟨_, hp, agreeNonDef_refl _⟩
    · exact ⟨_, hp, agreeNonDef_update _ row⟩
  · intro m row k q h
    rw [passRow_eq] at h
    obtain ⟨p, hp, hor⟩ := enrichRow_dget h
    rcases hor with rfl | rfl
    · exact ⟨_, hp, agreeNonPass_refl _⟩
    · exact ⟨_, hp, agreeNonPass_update _ row⟩
  · intro pyhash stdT gkT defT pasT k p0 h
    obtain ⟨p1, h1, r1⟩ := enrichPass_dget_some gkUpdate agreeNonGK_refl
      (fun ha hb => agreeNonGK_trans ha hb) agreeNonGK_update gkT _ k p0 h
    obtain ⟨p2, h2, r2⟩ := enrichPass_dget_some defUpdate agreeNonDef_refl
      (fun ha hb => agreeNonDef_trans ha hb) agreeNonDef_update defT _ k p1 h1
    obtain ⟨p3, h3, r3⟩ := enrichPass_dget_some passUpdate agreeNonPass_refl
      (fun ha hb => agreeNonPass_trans ha hb) agreeNonPass_update pasT _ k p2 h2
    refine ⟨p3, ?_, ?_⟩
    · unfold mergedDict
      rw [passRow_eq, defRow_eq, gkRow_eq]
      exact h3
    · exact agreeSeeded_trans (agreeNonGK_seeded r1)
        (agreeSeeded_trans (agreeNonDef_seeded r2) (agreeNonPass_seeded r3))

theorem mergedDict_gk_skip {pyhash : PyStr → Int} {stdT : Table}
    {defT pasT : Option Table} (gkT : Option Table)
    (h : gkT = Option.none ∨ gkT = some ([] : Table)) :
    mergedDict pyhash stdT gkT defT pasT =
      enrichPass passRow (enrichPass defRow (seedDict pyhash stdT) defT) pasT := by
  rcases h with rfl | rfl <;> rfl

theorem mergedDict_def_skip {pyhash : PyStr → Int} {stdT : Table}
    {gkT pasT : Option Table} (defT : Option Table)
    (h : defT = Option.none ∨ defT = some ([] : Table)) :
    mergedDict pyhash stdT gkT defT pasT =
      enrichPass passRow (enrichPass gkRow (seedDict pyhash stdT) gkT) pasT := by
  rcases h with rfl | rfl <;> rfl

theorem mergedDict_pass_skip {pyhash : PyStr → Int} {stdT : Table}
    {gkT defT : Option Table} (pasT : Option Table)
    (h : pasT = Option.none ∨ pasT = some ([] : Table)) :
    mergedDict pyhash stdT gkT defT pasT =
      enrichPass defRow (enrichPass gkRow (seedDict pyhash stdT) gkT) defT := by
  rcases h with rfl | rfl <;> rfl

/-- CLAIM C5.  A failed (no table) or empty secondary fetch does not
abort the pipeline: the run is identical to one where that source is
absent, the fields owned by that source stay at their seeded default 0
in every output record, and whenever the primary table was fetched the
pipeline still completes with an output. -/
theorem claim_C5 (pyhash : PyStr → Int) (std gkT defT pasT : Option Table) :
    ((gkT = Option.none ∨ gkT = some ([] : Table)) →
      runPipeline pyhash std gkT defT pasT =
        runPipeline pyhash std Option.none defT pasT ∧
      (∀ (out : Output) (p : Player),
        runPipeline pyhash std gkT defT pasT = some out → p ∈ out.players →
        p.cleanSheets = 0 ∧ p.saves = 0 ∧ p.penaltySaves = 0 ∧ p.goalsConceded = 0)) ∧
    ((defT = Option.none ∨ defT = some ([] : Table)) →
      runPipeline pyhash std gkT defT pasT =
        runPipeline pyhash std gkT Option.none pasT ∧
      (∀ (out : Output) (p : Player),
        runPipeline pyhash std gkT defT pasT = some out → p ∈ out.players →
        p.tacklesWon = 0 ∧ p.interceptions = 0)) ∧
    ((pasT = Option.none ∨ pasT = some ([] : Table)) →
      runPipeline pyhash std gkT defT pasT =
        runPipeline pyhash std gkT defT Option.none ∧
      (∀ (out : Output) (p : Player),
        runPipeline pyhash std gkT defT pasT = some out → p ∈ out.players →
        p.keyPasses = 0 ∧ p.bigChancesCreated = 0)) ∧
    (∀ t : Table, std = some t →
      ∃ out : Output, runPipeline pyhash std gkT defT pasT = some out) := by
  refine ⟨?_, ?_, ?_, ?_⟩
  · intro h
    constructor
    · rcases h with rfl | rfl
      · rfl
      · cases std with
        | none => rfl
        | some t => rfl
    · intro out p hrun hp
      cases std with
      | none => simp [runPipeline] at hrun
      | some stdT =>
        obtain ⟨q, hq, rfl⟩ := mem_players_of_run hrun hp
        rw [mergedDict_gk_skip gkT h, passRow_eq, defRow_eq] at hq
        obtain ⟨p1, hp1, hr1⟩ := enrichPass_values passUpdate
          (R := fun a b => a.cleanSheets = b.cleanSheets ∧ a.saves = b.saves ∧
            a.penaltySaves = b.penaltySaves ∧ a.goalsConceded = b.goalsConceded)
          (fun p => ⟨rfl, rfl, rfl, rfl⟩)
          (fun ha hb => ⟨ha.1.trans hb.1, ha.2.1.trans hb.2.1,
            ha.2.2.1.trans hb.2.2.1, ha.2.2.2.trans hb.2.2.2⟩)
          (fun p row => ⟨rfl, rfl, rfl, rfl⟩) pasT _ q hq
        obtain ⟨p0, hp0, hr0⟩ := enrichPass_values defUpdate
          (R := fun a b => a.cleanSheets = b.cleanSheets ∧ a.saves = b.saves ∧
            a.penaltySaves = b.penaltySaves ∧ a.goalsConceded = b.goalsConceded)
          (fun p => ⟨rfl, rfl, rfl, rfl⟩)
          (fun ha hb => ⟨ha.1.trans hb.1, ha.2.1.trans hb.2.1,
            ha.2.2.1.trans hb.2.2.1, ha.2.2.2.trans hb.2.2.2⟩)
          (fun p row => ⟨rfl, rfl, rfl, rfl⟩) defT _ p1 hp1
        obtain ⟨row, hrow, _, _, _, hcs, hsv, hps, hgc, _, _, _, _, _, _⟩ :=
          seedDict_values hp0
        obtain ⟨a1, a2, a3, a4⟩ := hr0
        obtain ⟨b1, b2, b3, b4⟩ := hr1
        refine ⟨?_, ?_, ?_, ?_⟩
        · show q.cleanSheets = 0
          omega
        · show q.saves = 0
          omega
        · show q.penaltySaves = 0
          omega
        · show q.goalsConceded = 0
          omega
  · intro h
    constructor
    · rcases h with rfl | rfl
      · rfl
      · cases std with
        | none => rfl
        | some t => rfl
    · intro out p hrun hp
      cases std with
      | none => simp [runPipeline] at hrun
      | some stdT =>
        obtain ⟨q, hq, rfl⟩ := mem_players_of_run hrun hp
        rw [mergedDict_def_skip defT h, passRow_eq, gkRow_eq] at hq
        obtain ⟨p1, hp1, hr1⟩ := enrichPass_values passUpdate
          (R := fun a b => a.tacklesWon = b.tacklesWon ∧
            a.interceptions = b.interceptions)
          (fun p => ⟨rfl, rfl⟩)
          (fun ha hb => ⟨ha.1.trans hb.1, ha.2.trans hb.2⟩)
          (fun p row => ⟨rfl, rfl⟩) pasT _ q hq
        obtain ⟨p0, hp0, hr0⟩ := enrichPass_values gkUpdate
          (R := fun a b => a.tacklesWon = b.tacklesWon ∧
            a.interceptions = b.interceptions)
          (fun p => ⟨rfl, rfl⟩)
          (fun ha hb => ⟨ha.1.trans hb.1, ha.2.trans hb.2⟩)
          (fun p row => ⟨rfl, rfl⟩) gkT _ p1 hp1
        obtain ⟨row, hrow, _, _, _, _, _, _, _, htw, hic, _, _, _, _⟩ :=
          seedDict_values hp0
        obtain ⟨a1, a2⟩ := hr0
        obtain ⟨b1, b2⟩ := hr1
        refine ⟨?_, ?_⟩
        · show q.tacklesWon = 0
          omega
        · show q.interceptions = 0
          omega
  · intro h
    constructor
    · rcases h with rfl | rfl
      · rfl
      · cases std with
        | none => rfl
        | some t => rfl
    · intro out p hrun hp
      cases std with
      | none => simp [runPipeline] at hrun
      | some stdT =>
        obtain ⟨q, hq, rfl⟩ := mem_players_of_run hrun hp
        rw [mergedDict_pass_skip pasT h, defRow_eq, gkRow_eq] at hq
        obtain ⟨p1, hp1, hr1⟩ := enrichPass_values defUpdate
          (R := fun a b => a.keyPasses = b.keyPasses ∧
            a.bigChancesCreated = b.bigChancesCreated)
          (fun p => ⟨rfl, rfl⟩)
          (fun ha hb => ⟨ha.1.trans hb.1, ha.2.trans hb.2⟩)
          (fun p row => ⟨rfl, rfl⟩) defT _ q hq
        obtain ⟨p0, hp0, hr0⟩ := enrichPass_values gkUpdate
          (R := fun a b => a.keyPasses = b.keyPasses ∧
            a.bigChancesCreated = b.bigChancesCreated)
          (fun p => ⟨rfl, rfl⟩)
          (fun ha hb => ⟨ha.1.trans hb.1, ha.2.trans hb.2⟩)
          (fun p row => ⟨rfl, rfl⟩) gkT _ p1 hp1
        obtain ⟨row, hrow, _, _, _, _, _, _, _, _, _, hkp, hbc, _, _⟩ :=
          seedDict_values hp0
        obtain ⟨a1, a2⟩ := hr0
        obtain ⟨b1, b2⟩ := hr1
        refine ⟨?_, ?_⟩
        · show q.keyPasses = 0
          omega
        · show q.bigChancesCreated = 0
          omega
  · intro t ht
    subst ht
    exact ⟨_, rfl⟩

theorem filter_orderedInsert (c : Int) (x : Player) (l : List Player) :
    (List.orderedInsert byPoints x l).filter (fun p => decide (p.points = c)) =
      if x.points = c
      then x :: l.filter (fun p => decide (p.points = c))
      else l.filter (fun p => decide (p.points = c)) := by
  induction l with
  | nil =>
    by_cases hx : x.points = c <;> simp [List.orderedInsert, hx]
  | cons y t ih =>
    simp only [List.orderedInsert]
    by_cases hr : byPoints x y
    · rw [if_pos hr]
      by_cases hx : x.points = c <;> simp [List.filter_cons, hx]
    · rw [if_neg hr]
      have hy : x.points < y.points := by
        unfold byPoints at hr
        omega
      by_cases hx : x.points = c
      · have hyc : ¬(y.points = c) := by omega
        simp [List.filter_cons, hyc, ih, hx]
      · simp [List.filter_cons, ih, hx]

theorem filter_insertionSort (c : Int) (l : List Player) :
    (List.insertionSort byPoints l).filter (fun p => decide (p.points = c)) =
      l.filter (fun p => decide (p.points = c)) := by
  induction l with
  | nil => rfl
  | cons x t ih =>
    simp only [List.insertionSort]
    rw [filter_orderedInsert]
    by_cases hx : x.points = c <;> simp [List.filter_cons, hx, ih]

/-- CLAIM C7.  The players sequence of the output is sorted by points in
descending order, it is a permutation of the scored list produced by the
merge, and the sort is stable: for every points value, the records
carrying it appear in the same order as in the merged list. -/
theorem claim_C7 (pyhash : PyStr → Int) (stdT : Table) (gkT defT pasT : Option Table)
    (out : Output) (hrun : runPipeline pyhash (some stdT) gkT defT pasT = some out) :
    out.players.Perm (scoredList pyhash stdT gkT defT pasT) ∧
    List.Pairwise byPoints out.players ∧
    (∀ c : Int, out.players.filter (fun p => decide (p.points = c)) =
      (scoredList pyhash stdT gkT defT pasT).filter (fun p => decide (p.points = c))) := by
  rw [runPipeline_some hrun]
  unfold sortPlayers
  exact ⟨List.perm_insertionSort byPoints _,
    List.sorted_insertionSort byPoints _,
    fun c => filter_insertionSort c _⟩

/-- Concrete inputs used by the witnesses of the pipeline claims: a
constant hash function, a one-row primary table and the corresponding
pipeline output. -/
def hashZero : PyStr → Int := fun _ => 0

/-- Witness primary row: player Ann, forward with three goals. -/
def wStdRow : Row :=
  [(pyS ("Player"), PyVal.str (pyS ("Ann"))), (pyS ("Pos"), PyVal.str (pyS ("FW"))),
   (pyS ("Gls"), PyVal.str (pyS ("3")))]

/-- Witness record as seeded and scored from wStdRow. -/
def wPlayer : Player :=
  { id := 0, name := pyS ("Ann"), club := pyS ("Unknown"), pos := pyS ("FWD"),
    goals := 3, points := 12 }

/-- Witness output of the pipeline on the one-row primary table. -/
def wOut : Output :=
  { season := pyS ("2024-25"), league := pyS ("La Liga"), source := pyS ("FBref.com"),
    players := [wPlayer] }


/-- CLAIM C3, witness: the output record of a concrete run traced back to
its surviving primary row. -/
theorem claim_C3_witness :
    ∃ row ∈ ([wStdRow] : Table), rowSurvives row ∧
      normKey (rowName row) = normKey wPlayer.name :=
  (claim_C3 hashZero [wStdRow] Option.none Option.none Option.none).1 wOut wPlayer
    (by decide) (by decide)

/-- CLAIM C10, witness: the id bound at the concrete run. -/
theorem claim_C10_witness : 0 ≤ wPlayer.id ∧ wPlayer.id < 100000 :=
  claim_C10 hashZero [wStdRow] Option.none Option.none Option.none wOut wPlayer
    (by decide) (by decide)

/-- Witness goalkeeping row and dict for the frame claim. -/
def wGkRow : Row :=
  [(pyS ("Player"), PyVal.str (pyS ("Ann"))), (pyS ("Saves"), PyVal.str (pyS ("7")))]

/-- Witness dict holding the Ann record under its normalised key. -/
def wDict : Players := [(pyS ("ann"), wPlayer)]

/-- The Ann record after the goalkeeping overwrite of wGkRow. -/
def wPlayerGk : Player := { wPlayer with saves := 7 }

/-- CLAIM C4, witness: the goalkeeping frame property at a concrete dict
and row. -/
theorem claim_C4_witness :
    ∃ p, dget wDict (pyS ("ann")) = some p ∧ agreeNonGK p wPlayerGk :=
  claim_C4.1 wDict wGkRow (pyS ("ann")) wPlayerGk (by decide)

/-- CLAIM C5, witness: an empty goalkeeping table at a concrete run
behaves as a missing one and leaves the goalkeeping fields at zero. -/
theorem claim_C5_witness :
    runPipeline hashZero (some [wStdRow]) (some []) Option.none Option.none =
      runPipeline hashZero (some [wStdRow]) Option.none Option.none Option.none ∧
    (wPlayer.cleanSheets = 0 ∧ wPlayer.saves = 0 ∧ wPlayer.penaltySaves = 0 ∧
      wPlayer.goalsConceded = 0) := by
  have h := (claim_C5 hashZero (some [wStdRow]) (some []) Option.none Option.none).1
    (Or.inr rfl)
  exact ⟨h.1, h.2 wOut wPlayer (by decide) (by decide)⟩

/-- CLAIM C7, witness: stability filter equality at the concrete run and
points value 12. -/
theorem claim_C7_witness :
    wOut.players.filter (fun p => decide (p.points = 12)) =
      (scoredList hashZero [wStdRow] Option.none Option.none Option.none).filter
        (fun p => decide (p.points = 12)) :=
  (claim_C7 hashZero [wStdRow] Option.none Option.none Option.none wOut
    (by decide)).2.2 12
